import Mathlib

/-!
# Verification of `test-deployment/decode-jwt.py`

A shallow embedding of the JWT-payload decoding utility: the script splits a
token on `.`, pads the middle segment, base64url-decodes it
(`base64.urlsafe_b64decode`), parses the bytes as JSON (`json.loads`), and the
entry point pretty-prints the result when it is truthy.

Modelling conventions:

* Python strings are Lean `String`s (sequences of unicode scalar values);
  operations that walk characters work on the underlying `List Char`.
* Bytes are `Nat`s below 256 (`List Nat` for byte strings).
* `print(...)` calls are modelled by accumulating the printed texts, in order,
  in a `List String`; each entry is one `print` call's text (the trailing
  newline that `print` appends is implicit in the list structure).
* JSON numbers are modelled as integers (`Int`).  Python's `json` module also
  accepts floating-point literals; machine floats are outside the scope of the
  embedding, so the parser reports an error on a fractional/exponent suffix
  instead of producing a float.  No claim involves float payloads.
* Python's lenient `binascii.a2b_base64` (non-strict mode, as called by
  `base64.b64decode` with `validate=False`) is modelled faithfully: characters
  outside the alphabet are skipped, `=` ends a quantum once at least two data
  characters are pending, and a trailing partial quantum is an error.
-/

/-- The JSON values produced by Python's `json.loads`: `None`, `bool`, `int`,
`str`, `list` and `dict` (association list in insertion order; `json.loads`
never produces duplicate keys because it builds a `dict`).  Floats are not
modelled (see the header comment). -/
inductive Json where
  | null : Json
  | bool (b : Bool) : Json
  | num (n : Int) : Json
  | str (s : String) : Json
  | arr (elems : List Json) : Json
  | obj (members : List (String × Json)) : Json
deriving Repr

mutual
/-- Node count of a JSON value; used as a fuel bound for the parser. -/
def jsize : Json → Nat
  | .null => 1
  | .bool _ => 1
  | .num _ => 1
  | .str _ => 1
  | .arr xs => 2 + jsizeL xs
  | .obj kvs => 2 + jsizeO kvs

def jsizeL : List Json → Nat
  | [] => 0
  | x :: xs => jsize x + jsizeL xs

def jsizeO : List (String × Json) → Nat
  | [] => 0
  | (_, v) :: kvs => jsize v + jsizeO kvs
end

/-- Key lists of Python dicts are duplicate-free. -/
def nodupKeys : List (String × Json) → Bool
  | [] => true
  | (k, _) :: rest => (!(rest.map Prod.fst).contains k) && nodupKeys rest

mutual
/-- Well-formedness: every object in the value has duplicate-free keys.  This
is the representation invariant of values that arise from Python dicts. -/
def jwf : Json → Bool
  | .null => true
  | .bool _ => true
  | .num _ => true
  | .str _ => true
  | .arr xs => jwfL xs
  | .obj kvs => nodupKeys kvs && jwfO kvs

def jwfL : List Json → Bool
  | [] => true
  | x :: xs => jwf x && jwfL xs

def jwfO : List (String × Json) → Bool
  | [] => true
  | (_, v) :: kvs => jwf v && jwfO kvs
end

/-- Python truthiness of a decoded JSON value (`if payload:` in the script):
`None`, `False`, `0`, `""`, `[]` and `{}` are falsy. -/
def jtruthy : Json → Bool
  | .null => false
  | .bool b => b
  | .num n => n ≠ 0
  | .str s => s.data ≠ []
  | .arr xs => !xs.isEmpty
  | .obj kvs => !kvs.isEmpty

/-- `d.digitChar` for `d < 10`, i.e. the character of a decimal digit. -/
def decDigitChar (d : Nat) : Char := Char.ofNat (48 + d)

/-- Digit-accumulating loop for printing a natural number: structural
recursion on a fuel bound of at least the number (so that evaluation reduces
definitionally); when fuel runs out the number is below 10 and one digit
remains. -/
def natDigitsAux : Nat → Nat → List Char → List Char
  | 0, n, acc => decDigitChar (n % 10) :: acc
  | fuel + 1, n, acc =>
    if n < 10 then decDigitChar n :: acc
    else natDigitsAux fuel (n / 10) (decDigitChar (n % 10) :: acc)

/-- Decimal digits of a natural number, most significant first, as Python's
`str(int)` prints them. -/
def natDigits (n : Nat) : List Char := natDigitsAux n n []

/-- Lowercase hex digit character, as Python's `'\\u%04x'` formatting emits. -/
def hexDigitCh (d : Nat) : Char :=
  if d < 10 then Char.ofNat (48 + d) else Char.ofNat (87 + d)

/-- Four lowercase hex digits of `n < 0x10000`. -/
def hex4Chars (n : Nat) : List Char :=
  [hexDigitCh (n / 4096 % 16), hexDigitCh (n / 256 % 16),
   hexDigitCh (n / 16 % 16), hexDigitCh (n % 16)]

/-- Escaping of one character by `json.dumps` with the default
`ensure_ascii=True` (CPython's `py_encode_basestring_ascii`): `"` and `\\` and
the five short control escapes get two-character escapes, every other
character outside `0x20`–`0x7e` becomes `\\uXXXX` (a surrogate pair for
code points above `0xFFFF`), and the rest pass through. -/
def escChar (c : Char) : List Char :=
  if c = '"' then ['\\', '"']
  else if c = '\\' then ['\\', '\\']
  else if c = '\x08' then ['\\', 'b']
  else if c = '\x0c' then ['\\', 'f']
  else if c = '\n' then ['\\', 'n']
  else if c = '\x0d' then ['\\', 'r']
  else if c = '\t' then ['\\', 't']
  else if 0x20 ≤ c.toNat ∧ c.toNat ≤ 0x7e then [c]
  else if c.toNat < 0x10000 then '\\' :: 'u' :: hex4Chars c.toNat
  else
    '\\' :: 'u' :: hex4Chars (0xd800 + (c.toNat - 0x10000) / 0x400) ++
      ('\\' :: 'u' :: hex4Chars ((c.toNat - 0x10000) % 0x400 + 0xdc00))

/-- A JSON string literal as `json.dumps` emits it: quotes around the escaped
characters. -/
def dumpStr (s : String) : List Char :=
  '"' :: (s.data.flatMap escChar ++ ['"'])

/-- The characters of a serialized integer (Python `str(int)`). -/
def dumpInt (i : Int) : List Char :=
  if i < 0 then '-' :: natDigits i.natAbs else natDigits i.toNat

mutual
/-- Compact serialization of a JSON value: `json.dumps(v)` with the default
separators `', '` and `': '` and `ensure_ascii=True`. -/
def dumpChars : Json → List Char
  | .null => 'n' :: ['u', 'l', 'l']
  | .bool true => 't' :: ['r', 'u', 'e']
  | .bool false => 'f' :: ['a', 'l', 's', 'e']
  | .num i => dumpInt i
  | .str s => dumpStr s
  | .arr xs => '[' :: (dumpCharsL xs ++ [']'])
  | .obj kvs => '{' :: (dumpCharsO kvs ++ ['}'])

def dumpCharsL : List Json → List Char
  | [] => []
  | [x] => dumpChars x
  | x :: y :: xs => dumpChars x ++ ',' :: ' ' :: dumpCharsL (y :: xs)

def dumpCharsO : List (String × Json) → List Char
  | [] => []
  | [(k, v)] => dumpStr k ++ ':' :: ' ' :: dumpChars v
  | (k, v) :: m :: kvs =>
      dumpStr k ++ ':' :: ' ' :: dumpChars v ++ ',' :: ' ' :: dumpCharsO (m :: kvs)
end

/-- `json.dumps(v)` as a string. -/
def json_dumps (v : Json) : String := String.mk (dumpChars v)

/-- `2 * n` spaces: the indentation prefix at nesting level `n` for
`json.dumps(v, indent=2)`. -/
def indent2 (n : Nat) : List Char := List.replicate (2 * n) ' '

mutual
/-- Pretty serialization at nesting level `lvl`: `json.dumps(v, indent=2)`
(with the item separator `','` and key separator `': '` that `indent` selects;
empty containers stay on one line). -/
def dumpIndChars : Nat → Json → List Char
  | _, .null => ['n', 'u', 'l', 'l']
  | _, .bool true => ['t', 'r', 'u', 'e']
  | _, .bool false => ['f', 'a', 'l', 's', 'e']
  | _, .num i => dumpInt i
  | _, .str s => dumpStr s
  | _, .arr [] => ['[', ']']
  | lvl, .arr (x :: xs) =>
      '[' :: '\n' :: (dumpIndCharsL (lvl + 1) (x :: xs) ++
        '\n' :: (indent2 lvl ++ [']']))
  | _, .obj [] => ['{', '}']
  | lvl, .obj (m :: kvs) =>
      '{' :: '\n' :: (dumpIndCharsO (lvl + 1) (m :: kvs) ++
        '\n' :: (indent2 lvl ++ ['}']))

def dumpIndCharsL : Nat → List Json → List Char
  | _, [] => []
  | lvl, [x] => indent2 lvl ++ dumpIndChars lvl x
  | lvl, x :: y :: xs =>
      indent2 lvl ++ dumpIndChars lvl x ++ ',' :: '\n' :: dumpIndCharsL lvl (y :: xs)

def dumpIndCharsO : Nat → List (String × Json) → List Char
  | _, [] => []
  | lvl, [(k, v)] => indent2 lvl ++ dumpStr k ++ ':' :: ' ' :: dumpIndChars lvl v
  | lvl, (k, v) :: m :: kvs =>
      indent2 lvl ++ dumpStr k ++ ':' :: ' ' :: dumpIndChars lvl v ++
        ',' :: '\n' :: dumpIndCharsO lvl (m :: kvs)
end

/-- `json.dumps(v, indent=2)`, the serialization the entry point prints. -/
def json_dumps_indent2 (v : Json) : String := String.mk (dumpIndChars 0 v)

/-- Python `token.split('.')`: cut at every `'.'`, keeping empty segments
(`''.split('.') == ['']`). -/
def splitOnDot : List Char → List (List Char)
  | [] => [[]]
  | c :: rest =>
    if c = '.' then [] :: splitOnDot rest
    else
      match splitOnDot rest with
      | [] => [[c]]
      | g :: gs => (c :: g) :: gs

/-- The padding step of `decode_jwt_payload`:
`padding = 4 - (len(payload) % 4); if padding != 4: payload += '=' * padding`. -/
def pad_payload (payload : List Char) : List Char :=
  let padding := 4 - payload.length % 4
  if padding ≠ 4 then payload ++ List.replicate padding '=' else payload

/-- Value of a character in the standard base64 alphabet (`binascii`'s
`table_a2b_base64`), `none` for every character outside it. -/
def b64val (c : Char) : Option Nat :=
  let n := c.toNat
  if 65 ≤ n ∧ n ≤ 90 then some (n - 65)
  else if 97 ≤ n ∧ n ≤ 122 then some (n - 97 + 26)
  else if 48 ≤ n ∧ n ≤ 57 then some (n - 48 + 52)
  else if c = '+' then some 62
  else if c = '/' then some 63
  else none

/-- The character translation `base64.urlsafe_b64decode` applies before
decoding: `-` to `+` and `_` to `/`. -/
def urlTrans (c : Char) : Char :=
  if c = '-' then '+' else if c = '_' then '/' else c

/-- The state-machine loop of `binascii.a2b_base64` in its default non-strict
mode: `quadPos` counts data characters of the pending quantum (0–3),
`leftchar` holds their leftover bits, `pads` counts consecutive padding
characters seen at `quadPos ≥ 2`, and `acc` holds the output bytes in reverse.
Characters outside the alphabet are skipped; `=` at `quadPos ≥ 2` completing a
quantum ends the decode (the remaining input is ignored); a trailing partial
quantum is an error, with a distinguished message when exactly one data
character is left over. -/
def a2b : List Char → Nat → Nat → Nat → List Nat → Except String (List Nat)
  | [], 0, _, _, acc => .ok acc.reverse
  | [], 1, _, _, _ =>
      .error "Invalid base64-encoded string: number of data characters cannot be 1 more than a multiple of 4"
  | [], _ + 2, _, _, _ => .error "Incorrect padding"
  | c :: cs, quadPos, leftchar, pads, acc =>
    if c = '=' then
      if 2 ≤ quadPos then
        if 4 ≤ quadPos + (pads + 1) then .ok acc.reverse
        else a2b cs quadPos leftchar (pads + 1) acc
      else a2b cs quadPos leftchar pads acc
    else
      match b64val c with
      | none => a2b cs quadPos leftchar pads acc
      | some d =>
        match quadPos with
        | 0 => a2b cs 1 d 0 acc
        | 1 => a2b cs 2 (d % 16) 0 ((leftchar * 4 + d / 16) :: acc)
        | 2 => a2b cs 3 (d % 4) 0 ((leftchar * 16 + d / 4) :: acc)
        | _ + 3 => a2b cs 0 0 0 ((leftchar * 64 + d) :: acc)

/-- `base64.urlsafe_b64decode(s)` on a `str` argument: encode to ASCII
(a `ValueError` if any character is non-ASCII), translate `-` and `_`, and run
the lenient base64 state machine. -/
def urlsafe_b64decode (s : List Char) : Except String (List Nat) :=
  if s.all (fun c => c.toNat < 128) then a2b (s.map urlTrans) 0 0 0 []
  else .error "string argument should contain only ASCII characters"

/-- The byte-at-a-time strict UTF-8 decoder (the structure of CPython's
decoder): `pending` counts continuation bytes still expected, `acc` holds the
bits accumulated so far, and `lo`/`hi` bound the next byte — tightened after
the lead bytes `E0`/`ED`/`F0`/`F4` to reject overlong encodings, surrogates
and values above `0x10FFFF`.  `json.loads` on a `bytes` argument performs this
decode and a failure is a `UnicodeDecodeError`. -/
def utf8Run : List Nat → Nat → Nat → Nat → Nat → Except String (List Char)
  | [], 0, _, _, _ => .ok []
  | [], _ + 1, _, _, _ => .error "unexpected end of data"
  | b :: bs, 0, _, _, _ =>
    if b < 0x80 then (utf8Run bs 0 0 0 0).map (fun cs => Char.ofNat b :: cs)
    else if 0xc2 ≤ b && b ≤ 0xdf then utf8Run bs 1 (b - 0xc0) 0x80 0xbf
    else if b = 0xe0 then utf8Run bs 2 0 0xa0 0xbf
    else if b = 0xed then utf8Run bs 2 13 0x80 0x9f
    else if 0xe1 ≤ b && b ≤ 0xef then utf8Run bs 2 (b - 0xe0) 0x80 0xbf
    else if b = 0xf0 then utf8Run bs 3 0 0x90 0xbf
    else if b = 0xf4 then utf8Run bs 3 4 0x80 0x8f
    else if 0xf1 ≤ b && b ≤ 0xf3 then utf8Run bs 3 (b - 0xf0) 0x80 0xbf
    else .error "invalid start byte"
  | b :: bs, 1, acc, lo, hi =>
    if lo ≤ b && b ≤ hi then
      (utf8Run bs 0 0 0 0).map (fun cs => Char.ofNat (acc * 64 + (b - 0x80)) :: cs)
    else .error "invalid continuation byte"
  | b :: bs, pending + 2, acc, lo, hi =>
    if lo ≤ b && b ≤ hi then utf8Run bs (pending + 1) (acc * 64 + (b - 0x80)) 0x80 0xbf
    else .error "invalid continuation byte"

/-- Strict UTF-8 decoding of a byte sequence: run the decoder from the start
state. -/
def utf8Decode (bs : List Nat) : Except String (List Char) := utf8Run bs 0 0 0 0

/-- The JSON whitespace characters (`json.decoder.WHITESPACE`). -/
def isJsonWs (c : Char) : Bool :=
  c = ' ' || c = '\t' || c = '\n' || c = '\x0d'

/-- Skip JSON whitespace. -/
def skipWs (cs : List Char) : List Char := cs.dropWhile isJsonWs

/-- Value of a hex digit (`0-9a-fA-F`), as `_decode_uXXXX` reads them. -/
def hexVal (c : Char) : Option Nat :=
  let n := c.toNat
  if 48 ≤ n ∧ n ≤ 57 then some (n - 48)
  else if 97 ≤ n ∧ n ≤ 102 then some (n - 97 + 10)
  else if 65 ≤ n ∧ n ≤ 70 then some (n - 65 + 10)
  else none

/-- Four hex digits as one number. -/
def hex4 (h1 h2 h3 h4 : Char) : Option Nat := do
  let v1 ← hexVal h1
  let v2 ← hexVal h2
  let v3 ← hexVal h3
  let v4 ← hexVal h4
  pure (v1 * 4096 + v2 * 256 + v3 * 16 + v4)

/-- The single-character escapes of `json.decoder.BACKSLASH`. -/
def escTable (c : Char) : Option Char :=
  if c = '"' then some '"'
  else if c = '\\' then some '\\'
  else if c = '/' then some '/'
  else if c = 'b' then some '\x08'
  else if c = 'f' then some '\x0c'
  else if c = 'n' then some '\n'
  else if c = 'r' then some '\x0d'
  else if c = 't' then some '\t'
  else none

/-- One backslash escape of `py_scanstring`, given the characters after the
backslash: the single-character escapes of `escTable`, and `\uXXXX` escapes
with surrogate-pair recombination (the pair form is the first pattern).
Returns the decoded character and the remaining input.  Deviation from
CPython: `chr()` of an unpaired surrogate escape yields a Python string that
Lean's scalar-value `Char` cannot represent, so the model reports an error
there; no serializer output contains one. -/
def escStep : List Char → Except String (Char × List Char)
  | 'u' :: h1 :: h2 :: h3 :: h4 :: rest2@('\\' :: 'u' :: g1 :: g2 :: g3 :: g4 :: cs4) =>
    (match hex4 h1 h2 h3 h4 with
     | none => .error "Invalid hex escape"
     | some u =>
       if 0xd800 ≤ u ∧ u ≤ 0xdbff then
         match hex4 g1 g2 g3 g4 with
         | none => .error "Invalid hex escape"
         | some u2 =>
           if 0xdc00 ≤ u2 ∧ u2 ≤ 0xdfff then
             .ok (Char.ofNat (0x10000 + (u - 0xd800) * 0x400 + (u2 - 0xdc00)), cs4)
           else .error "unpaired surrogate escape not representable"
       else if 0xdc00 ≤ u ∧ u ≤ 0xdfff then .error "unpaired surrogate escape not representable"
       else .ok (Char.ofNat u, rest2))
  | 'u' :: h1 :: h2 :: h3 :: h4 :: cs3 =>
    (match hex4 h1 h2 h3 h4 with
     | none => .error "Invalid hex escape"
     | some u =>
       if 0xd800 ≤ u ∧ u ≤ 0xdfff then .error "unpaired surrogate escape not representable"
       else .ok (Char.ofNat u, cs3))
  | 'u' :: _ => .error "Invalid hex escape"
  | e :: cs2 =>
    (match escTable e with
     | some c2 => .ok (c2, cs2)
     | none => .error "Invalid escape")
  | [] => .error "Unterminated string starting at"

/-- The character loop of `py_scanstring` after the opening quote (strict
mode): literal characters up to the closing quote, raw control characters
rejected, backslash escapes via `escStep`.  Structural recursion on a fuel
bound of at least the input length (escapes consume several characters at
once, so the recursion is not structural on the input). -/
def parseJStringF : Nat → List Char → Except String (List Char × List Char)
  | 0, _ => .error "Unterminated string starting at"
  | fuel + 1, cs =>
    match cs with
    | [] => .error "Unterminated string starting at"
    | c :: cs2 =>
      if c = '"' then .ok ([], cs2)
      else if c = '\\' then
        match escStep cs2 with
        | .error e => .error e
        | .ok (c2, cs3) => (parseJStringF fuel cs3).map (fun r => (c2 :: r.1, r.2))
      else if c.toNat < 0x20 then .error "Invalid control character"
      else (parseJStringF fuel cs2).map (fun r => (c :: r.1, r.2))

/-- `py_scanstring` after the opening quote: run the loop with enough fuel. -/
def parseJString (cs : List Char) : Except String (List Char × List Char) :=
  parseJStringF (cs.length + 1) cs

/-- Is `c` a decimal digit? -/
def isDigitCh (c : Char) : Bool := 48 ≤ c.toNat && c.toNat ≤ 57

/-- Greedy digit accumulation (the `\d*` tail of `json`'s `NUMBER_RE`). -/
def digitsAcc : Nat → List Char → Nat × List Char
  | acc, c :: cs => if isDigitCh c then digitsAcc (acc * 10 + (c.toNat - 48)) cs else (acc, c :: cs)
  | acc, [] => (acc, [])

/-- The integer part `(0|[1-9]\d*)` of `json`'s `NUMBER_RE`: a leading `0` is
not followed by more digits. -/
def parseUInt : List Char → Option (Nat × List Char)
  | c :: cs =>
    if c = '0' then some (0, cs)
    else if isDigitCh c then some (digitsAcc (c.toNat - 48) cs)
    else none
  | [] => none

/-- Does a fraction (`.` + digit) or exponent (`e`/`E`, optional sign, digit)
follow, i.e. would `NUMBER_RE` match a float here? -/
def hasFracExp : List Char → Bool
  | '.' :: c :: _ => isDigitCh c
  | 'e' :: rest => expDigits rest
  | 'E' :: rest => expDigits rest
  | _ => false
where
  /-- Digits of an exponent after `e`/`E`: optional sign, then a digit. -/
  expDigits : List Char → Bool
  | '+' :: c :: _ => isDigitCh c
  | '-' :: c :: _ => isDigitCh c
  | c :: _ => isDigitCh c
  | [] => false

/-- A number literal: optional `-`, integer part; a float continuation is not
modelled (see the header comment) and reported as an error. -/
def parseNumber (cs : List Char) : Except String (Json × List Char) :=
  match cs with
  | [] => .error "Expecting value"
  | c :: cs2 =>
    if c = '-' then
      match parseUInt cs2 with
      | none => .error "Expecting value"
      | some (n, rest) =>
        if hasFracExp rest then .error "float values are not modelled"
        else .ok (.num (-(n : Int)), rest)
    else
      match parseUInt (c :: cs2) with
      | none => .error "Expecting value"
      | some (n, rest) =>
        if hasFracExp rest then .error "float values are not modelled"
        else .ok (.num (n : Int), rest)

/-- `dict` insertion `d[k] = v`: an existing key keeps its position and takes
the new value, a new key is appended. -/
def dictInsert : List (String × Json) → String → Json → List (String × Json)
  | [], k, v => [(k, v)]
  | (k0, v0) :: rest, k, v =>
    if k0 = k then (k0, v) :: rest else (k0, v0) :: dictInsert rest k v

/-- `dict(pairs)`: left fold of insertions, as `JSONObject`'s final
`dict(pairs)` builds its result. -/
def pyDict (kvs : List (String × Json)) : List (String × Json) :=
  kvs.foldl (fun acc kv => dictInsert acc kv.1 kv.2) []

/-- The three mutually recursive scanners of `json.scanner.py_make_scanner` —
`_scan_once` (a value), the element loop of `JSONArray`, and the member loop
of `JSONObject` — defined together by primitive recursion on a fuel bound
standing for Python's recursion limit (so that evaluation reduces
definitionally).  Each container level consumes one unit of fuel; callers
supply more fuel than any input can nest, so the out-of-fuel errors are
unreachable there. -/
def parsers : Nat →
    (List Char → Except String (Json × List Char)) ×
    (List Char → Except String (List Json × List Char)) ×
    (List Char → Except String (List (String × Json) × List Char))
  | 0 =>
    (fun _ => .error "maximum recursion depth exceeded",
     fun _ => .error "maximum recursion depth exceeded",
     fun _ => .error "maximum recursion depth exceeded")
  | fuel + 1 =>
    let prev := parsers fuel
    -- `_scan_once`: dispatch on the first character to a string, object,
    -- array, literal or number.
    let pv : List Char → Except String (Json × List Char) := fun cs =>
      match cs with
      | [] => .error "Expecting value"
      | '"' :: rest => (parseJString rest).map (fun r => (.str (String.mk r.1), r.2))
      | '{' :: rest =>
        -- `JSONObject`: skip whitespace; `}` gives the empty dict, otherwise
        -- the member loop (which insists on an opening quote).
        (match skipWs rest with
         | '}' :: r => .ok (.obj [], r)
         | cs1 => (prev.2.2 cs1).map (fun r => (.obj (pyDict r.1), r.2)))
      | '[' :: rest =>
        -- `JSONArray`: skip whitespace; `]` gives the empty list, otherwise
        -- the element loop.
        (match skipWs rest with
         | ']' :: r => .ok (.arr [], r)
         | cs1 => (prev.2.1 cs1).map (fun r => (.arr r.1, r.2)))
      | 'n' :: 'u' :: 'l' :: 'l' :: rest => .ok (.null, rest)
      | 't' :: 'r' :: 'u' :: 'e' :: rest => .ok (.bool true, rest)
      | 'f' :: 'a' :: 'l' :: 's' :: 'e' :: rest => .ok (.bool false, rest)
      | c :: rest =>
        if c = '-' || isDigitCh c then parseNumber (c :: rest)
        else .error "Expecting value"
    -- Element loop of `JSONArray`: value, whitespace, then `,` (and more
    -- elements) or `]`.
    let pe : List Char → Except String (List Json × List Char) := fun cs => do
      let (v, cs2) ← prev.1 cs
      match skipWs cs2 with
      | ']' :: rest => .ok ([v], rest)
      | ',' :: rest => (prev.2.1 (skipWs rest)).map (fun r => (v :: r.1, r.2))
      | _ => .error "Expecting comma delimiter"
    -- Member loop of `JSONObject`: quoted key, whitespace, `:`, whitespace,
    -- value, whitespace, then `,` (and more members) or `}`.
    let pm : List Char → Except String (List (String × Json) × List Char) := fun cs =>
      match cs with
      | '"' :: cs1 => do
        let (kChars, cs2) ← parseJString cs1
        match skipWs cs2 with
        | ':' :: cs3 => do
          let (v, cs4) ← prev.1 (skipWs cs3)
          match skipWs cs4 with
          | '}' :: rest => .ok ([(String.mk kChars, v)], rest)
          | ',' :: rest =>
            (prev.2.2 (skipWs rest)).map (fun r => ((String.mk kChars, v) :: r.1, r.2))
          | _ => .error "Expecting comma delimiter"
        | _ => .error "Expecting colon delimiter"
      | _ => .error "Expecting property name enclosed in double quotes"
    (pv, pe, pm)

/-- `_scan_once` at a given fuel level. -/
def parseValue (fuel : Nat) (cs : List Char) : Except String (Json × List Char) :=
  (parsers fuel).1 cs

/-- The `JSONArray` element loop at a given fuel level. -/
def parseElems (fuel : Nat) (cs : List Char) : Except String (List Json × List Char) :=
  (parsers fuel).2.1 cs

/-- The `JSONObject` member loop at a given fuel level. -/
def parseMembers (fuel : Nat) (cs : List Char) :
    Except String (List (String × Json) × List Char) :=
  (parsers fuel).2.2 cs

/-- `json.loads` on already-decoded text: skip leading whitespace, scan one
value, require only whitespace to follow (else `Extra data`). -/
def jsonParse (cs : List Char) : Except String Json := do
  let (v, rest) ← parseValue (cs.length + 1) (skipWs cs)
  if (skipWs rest).isEmpty then pure v else .error "Extra data"

/-- `json.loads` on a `bytes` argument: UTF-8 decode, then parse. -/
def json_loads (bs : List Nat) : Except String Json := do
  let cs ← utf8Decode bs
  jsonParse cs

/-- The fallible middle of `decode_jwt_payload` once the payload segment is in
hand: pad, `base64.urlsafe_b64decode`, `json.loads`. -/
def decode_steps (payload : List Char) : Except String Json := do
  let bytes ← urlsafe_b64decode (pad_payload payload)
  json_loads bytes

/-- `decode_jwt_payload(token)`: the decoded value (or `None`) paired with the
texts the function prints.  Splitting into anything but three segments prints
`Invalid JWT format`; any error from the pad/base64/JSON steps is caught and
printed as `Error decoding JWT: <description>`. -/
def decode_jwt_payload (token : String) : Option Json × List String :=
  match splitOnDot token.data with
  | [_, payload, _] =>
    match decode_steps payload with
    | .ok v => (some v, [])
    | .error e => (none, ["Error decoding JWT: " ++ e])
  | _ => (none, ["Invalid JWT format"])

/-- The characters `str.strip()` removes: Python's unicode whitespace. -/
def isPySpace (c : Char) : Bool :=
  c.toNat ∈ [0x09, 0x0a, 0x0b, 0x0c, 0x0d, 0x1c, 0x1d, 0x1e, 0x1f, 0x20,
    0x85, 0xa0, 0x1680, 0x2000, 0x2001, 0x2002, 0x2003, 0x2004, 0x2005,
    0x2006, 0x2007, 0x2008, 0x2009, 0x200a, 0x2028, 0x2029, 0x202f, 0x205f, 0x3000]

/-- `s.strip()`: drop leading and trailing whitespace. -/
def pyStrip (s : String) : String :=
  String.mk (((s.data.dropWhile isPySpace).reverse.dropWhile isPySpace).reverse)

/-- The token the entry point decodes: `sys.argv[1]` when an argument is
given, else `sys.stdin.read().strip()`.  `argv` is the argument list after
the program name. -/
def tokenOf (argv : List String) (stdin : String) : String :=
  match argv with
  | t :: _ => t
  | [] => pyStrip stdin

/-- Everything the script prints, in order: the decoder's diagnostics, then —
only when the decoded payload is truthy — `json.dumps(payload, indent=2)`. -/
def main_output (argv : List String) (stdin : String) : List String :=
  match decode_jwt_payload (tokenOf argv stdin) with
  | (some v, out) => if jtruthy v then out ++ [json_dumps_indent2 v] else out
  | (none, out) => out

/-- Modelled from the spec (token formation for the round-trip property, not
code of this repository): unpadded base64url encoding of a byte sequence,
RFC 4648 §5. -/
def b64urlChar (v : Nat) : Char :=
  if v < 26 then Char.ofNat (65 + v)
  else if v < 52 then Char.ofNat (97 + (v - 26))
  else if v < 62 then Char.ofNat (48 + (v - 52))
  else if v = 62 then '-'
  else '_'

/-- Modelled from the spec: unpadded base64url encoding of bytes, three at a
time. -/
def b64urlEncode : List Nat → List Char
  | b1 :: b2 :: b3 :: rest =>
    b64urlChar (b1 / 4) :: b64urlChar (b1 % 4 * 16 + b2 / 16) ::
      b64urlChar (b2 % 16 * 4 + b3 / 64) :: b64urlChar (b3 % 64) :: b64urlEncode rest
  | [b1, b2] =>
    [b64urlChar (b1 / 4), b64urlChar (b1 % 4 * 16 + b2 / 16), b64urlChar (b2 % 16 * 4)]
  | [b1] => [b64urlChar (b1 / 4), b64urlChar (b1 % 4 * 16)]
  | [] => []

/-- UTF-8 encoding of one scalar value. -/
def utf8EncodeChar (c : Char) : List Nat :=
  let n := c.toNat
  if n < 0x80 then [n]
  else if n < 0x800 then [0xc0 + n / 64, 0x80 + n % 64]
  else if n < 0x10000 then [0xe0 + n / 4096, 0x80 + n / 64 % 64, 0x80 + n % 64]
  else [0xf0 + n / 0x40000, 0x80 + n / 4096 % 64, 0x80 + n / 64 % 64, 0x80 + n % 64]

/-- UTF-8 encoding of a string (Python `str.encode('utf-8')`). -/
def utf8Encode (s : String) : List Nat := s.data.flatMap utf8EncodeChar

/-- The character contexts that can follow a serialized JSON value inside a
serialized document: end of input, or a separator or closer. -/
def restOk (cs : List Char) : Prop :=
  cs = [] ∨ ∃ c t, cs = c :: t ∧ (c = ',' ∨ c = ']' ∨ c = '}')

/-! ## Splitting lemmas -/

/-- A dot-free list splits into itself alone. -/
theorem splitOnDot_no_dot : ∀ l : List Char, '.' ∉ l → splitOnDot l = [l]
  | [], _ => rfl
  | c :: cs, h => by
    have hc : ¬(c = '.') := fun hh => h (hh ▸ List.mem_cons_self c cs)
    have ih := splitOnDot_no_dot cs (fun hm => h (List.mem_cons_of_mem c hm))
    simp [splitOnDot, hc, ih]

/-- Splitting a list that starts with a dot-free segment followed by `'.'`. -/
theorem splitOnDot_append : ∀ l : List Char, '.' ∉ l → ∀ r : List Char,
    splitOnDot (l ++ '.' :: r) = l :: splitOnDot r
  | [], _, r => by simp [splitOnDot]
  | c :: cs, h, r => by
    have hc : ¬(c = '.') := fun hh => h (hh ▸ List.mem_cons_self c cs)
    have ih := splitOnDot_append cs (fun hm => h (List.mem_cons_of_mem c hm)) r
    simp only [List.cons_append, splitOnDot, hc, if_false]
    rw [show cs.append ('.' :: r) = cs ++ '.' :: r from rfl, ih]

/-- A three-segment token splits into its three segments. -/
theorem splitOnDot_three (a b c : List Char) (ha : '.' ∉ a) (hb : '.' ∉ b)
    (hc : '.' ∉ c) : splitOnDot (a ++ ('.' :: (b ++ ('.' :: c)))) = [a, b, c] := by
  rw [splitOnDot_append a ha, splitOnDot_append b hb, splitOnDot_no_dot c hc]

/-- `decode_jwt_payload` on a three-segment split reduces to the fallible
pipeline on the middle segment. -/
theorem decode_of_split3 (token : String) (a b c : List Char)
    (h : splitOnDot token.data = [a, b, c]) :
    decode_jwt_payload token = (match decode_steps b with
      | .ok v => (some v, [])
      | .error e => (none, ["Error decoding JWT: " ++ e])) := by
  unfold decode_jwt_payload
  rw [h]

/-- Every result of `decode_jwt_payload` has one of three shapes: a value with
nothing printed, or `None` with exactly one of the two diagnostics printed. -/
theorem decode_shape (token : String) :
    (∃ v, decode_jwt_payload token = (some v, [])) ∨
    decode_jwt_payload token = (none, ["Invalid JWT format"]) ∨
    (∃ e, decode_jwt_payload token = (none, ["Error decoding JWT: " ++ e])) := by
  unfold decode_jwt_payload
  split
  · rename_i s1 p s2 heq
    cases hd : decode_steps p with
    | ok v => exact .inl ⟨v, rfl⟩
    | error e => exact .inr (.inr ⟨e, rfl⟩)
  · exact .inr (.inl rfl)

/-- **C2.**  A token that does not split on `'.'` into exactly three segments
makes `decode_jwt_payload` print the single diagnostic `Invalid JWT format`
and return `None`; the base64/JSON pipeline is never entered (the definition
returns before `decode_steps`), so nothing else is printed. -/
theorem structural_failure (token : String)
    (h : (splitOnDot token.data).length ≠ 3) :
    decode_jwt_payload token = (none, ["Invalid JWT format"]) := by
  unfold decode_jwt_payload
  split
  · rename_i s1 p s2 heq
    rw [heq] at h
    simp at h
  · rfl

/-- Witness for C2 at the two-segment token `abc.def`. -/
theorem structural_failure_witness :
    decode_jwt_payload "abc.def" = (none, ["Invalid JWT format"]) :=
  structural_failure "abc.def" (by decide)

/-- **C4.**  On any three-segment token, every failure of the padding, base64,
UTF-8 or JSON steps is caught inside `decode_jwt_payload`: the result is
either a decoded value with nothing printed, or `None` with the single
diagnostic `Error decoding JWT: <description>`; being a total function of the
embedding, the decoder never propagates a fault. -/
theorem caught_errors (token : String)
    (h : (splitOnDot token.data).length = 3) :
    (∃ v, decode_jwt_payload token = (some v, [])) ∨
    (∃ e, decode_jwt_payload token = (none, ["Error decoding JWT: " ++ e])) := by
  obtain ⟨a, b, c, heq⟩ : ∃ a b c, splitOnDot token.data = [a, b, c] := by
    match hl : splitOnDot token.data with
    | [a, b, c] => exact ⟨a, b, c, rfl⟩
    | [] => rw [hl] at h; simp at h
    | [_] => rw [hl] at h; simp at h
    | [_, _] => rw [hl] at h; simp at h
    | _ :: _ :: _ :: _ :: _ => rw [hl] at h; simp at h
  rw [decode_of_split3 token a b c heq]
  cases decode_steps b with
  | ok v => exact .inl ⟨v, rfl⟩
  | error e => exact .inr ⟨e, rfl⟩

/-- Witness for C4 at the three-segment token `a.b.c`. -/
theorem caught_errors_witness :
    (∃ v, decode_jwt_payload "a.b.c" = (some v, [])) ∨
    (∃ e, decode_jwt_payload "a.b.c" = (none, ["Error decoding JWT: " ++ e])) :=
  caught_errors "a.b.c" (by decide)

/-- **C5.**  The padding step: with `r = length % 4`, nothing is appended when
`r = 0`, exactly `4 - r` copies of `'='` are appended when `r ≠ 0`, and the
result's length is always a multiple of 4. -/
theorem padding_step (payload : List Char) :
    (payload.length % 4 = 0 → pad_payload payload = payload) ∧
    (payload.length % 4 ≠ 0 →
      pad_payload payload = payload ++ List.replicate (4 - payload.length % 4) '=') ∧
    (pad_payload payload).length % 4 = 0 := by
  unfold pad_payload
  refine ⟨fun h => by simp [h], fun h => ?_, ?_⟩
  · have : 4 - payload.length % 4 ≠ 4 := by omega
    simp [this]
  · by_cases h : payload.length % 4 = 0
    · simp [h]
    · have h4 : 4 - payload.length % 4 ≠ 4 := by omega
      have hlt : payload.length % 4 < 4 := Nat.mod_lt _ (by omega)
      simp only [h4, ne_eq, not_false_eq_true, if_true, List.length_append,
        List.length_replicate]
      omega

/-- Witness for C5 at segments of length 4, 1 and 2. -/
theorem padding_step_witness :
    pad_payload ['a', 'b', 'c', 'd'] = ['a', 'b', 'c', 'd'] ∧
    pad_payload ['a'] = ['a'] ++ List.replicate 3 '=' ∧
    (pad_payload ['a', 'b']).length % 4 = 0 :=
  ⟨(padding_step ['a', 'b', 'c', 'd']).1 (by decide),
   (padding_step ['a']).2.1 (by decide),
   (padding_step ['a', 'b']).2.2⟩

/-- **C7.**  Determinism: in the embedding `decode_jwt_payload` and
`main_output` are mathematical functions of the token (the Python function
reads no state besides its argument, and its only effect — printing — is part
of the modelled result), so two invocations on the same input yield the same
returned value and the same printed output. -/
theorem decode_deterministic (token : String) (argv : List String) (stdin : String) :
    decode_jwt_payload token = decode_jwt_payload token ∧
    main_output argv stdin = main_output argv stdin :=
  ⟨rfl, rfl⟩

/-- **C9.**  The entry point prints the decoded payload iff it is truthy:
whatever `decode_jwt_payload` printed appears first, and the pretty-printed
value follows exactly when `if payload:` holds; for falsy decoded values
(`null`, `false`, `0`, `""`, `[]`, `{}`) nothing further is printed. -/
theorem truthy_gate (token : String) (v : Json) (out : List String)
    (h : decode_jwt_payload token = (some v, out)) :
    main_output [token] "" =
      out ++ (if jtruthy v then [json_dumps_indent2 v] else []) := by
  unfold main_output
  have ht : tokenOf [token] "" = token := rfl
  rw [ht, h]
  cases hb : jtruthy v <;> simp [hb]

/-- Witness for C9: the token `x.bnVsbA.y` decodes to `null`, which is falsy,
and the script prints nothing. -/
theorem truthy_gate_witness :
    main_output ["x.bnVsbA.y"] "" =
      [] ++ (if jtruthy Json.null then [json_dumps_indent2 Json.null] else []) :=
  truthy_gate "x.bnVsbA.y" Json.null [] rfl

/-- **C10.**  A token of the shape `<hdr>..<sig>` (empty payload segment,
dot-free outer segments — this covers `..` and `a..b`) passes the structural
check with three segments; the empty payload needs no padding and
base64-decodes to zero bytes, and the failure only arises at JSON parsing, so
the diagnostic is `Error decoding JWT: ...`, not `Invalid JWT format`. -/
theorem empty_payload_diag (hdr sig : List Char) (hh : '.' ∉ hdr) (hs : '.' ∉ sig) :
    (splitOnDot (hdr ++ ('.' :: ('.' :: sig)))).length = 3 ∧
    pad_payload [] = [] ∧
    urlsafe_b64decode [] = .ok [] ∧
    (∃ e, decode_jwt_payload (String.mk (hdr ++ ('.' :: ('.' :: sig)))) =
      (none, ["Error decoding JWT: " ++ e])) := by
  have hsplit : splitOnDot (hdr ++ ('.' :: ('.' :: sig))) = [hdr, [], sig] := by
    have h3 := splitOnDot_three hdr [] sig hh (by simp) hs
    simpa using h3
  refine ⟨by rw [hsplit]; rfl, rfl, rfl, ⟨"Expecting value", ?_⟩⟩
  rw [decode_of_split3 _ hdr [] sig hsplit]
  rfl

/-- Witness for C10 at the tokens `a..b` and `..`. -/
theorem empty_payload_diag_witness :
    (∃ e, decode_jwt_payload (String.mk (['a'] ++ ('.' :: ('.' :: ['b'])))) =
      (none, ["Error decoding JWT: " ++ e])) ∧
    (∃ e, decode_jwt_payload (String.mk (([] : List Char) ++ ('.' :: ('.' :: ([] : List Char))))) =
      (none, ["Error decoding JWT: " ++ e])) :=
  ⟨(empty_payload_diag ['a'] ['b'] (by decide) (by decide)).2.2.2,
   (empty_payload_diag [] [] (by decide) (by decide)).2.2.2⟩

/-- **C1 (amended).**  The claim as written fails for falsy decoded values
(see the counterexample); what holds is: whenever decoding succeeds with a
truthy value the entry point prints exactly `json.dumps(value, indent=2)`
(after any decoder diagnostics, of which there are none on success), and on
every input the user sees the formatted JSON, one of the two diagnostic
lines, or — for a falsy decoded value — nothing at all. -/
theorem entry_point_output (argv : List String) (stdin : String) :
    (∀ v out, decode_jwt_payload (tokenOf argv stdin) = (some v, out) →
      main_output argv stdin = out ++ (if jtruthy v then [json_dumps_indent2 v] else [])) ∧
    (main_output argv stdin = ["Invalid JWT format"] ∨
     (∃ e, main_output argv stdin = ["Error decoding JWT: " ++ e]) ∨
     (∃ v, jtruthy v = true ∧ main_output argv stdin = [json_dumps_indent2 v]) ∨
     main_output argv stdin = []) := by
  constructor
  · intro v out h
    unfold main_output
    rw [h]
    cases hb : jtruthy v <;> simp [hb]
  · rcases decode_shape (tokenOf argv stdin) with ⟨v, hv⟩ | hinv | ⟨e, he⟩
    · cases hb : jtruthy v
      · refine .inr (.inr (.inr ?_))
        unfold main_output
        rw [hv]
        simp [hb]
      · refine .inr (.inr (.inl ⟨v, hb, ?_⟩))
        unfold main_output
        rw [hv]
        simp [hb]
    · exact .inl (by unfold main_output; rw [hinv])
    · exact .inr (.inl ⟨e, by unfold main_output; rw [he]⟩)

/-- Counterexample to C1 as stated: on `h.e30.s` decoding succeeds with the
empty object (a falsy value), yet the entry point prints neither the
formatted JSON nor a diagnostic. -/
theorem entry_point_output_counterexample :
    decode_jwt_payload "h.e30.s" = (some (Json.obj []), []) ∧
    main_output ["h.e30.s"] "" = [] :=
  ⟨rfl, rfl⟩

/-- Witness for C1 (amended) at the token `h.MQ.s`, which decodes to the
truthy value `1`. -/
theorem entry_point_output_witness :
    main_output ["h.MQ.s"] "" =
      [] ++ (if jtruthy (Json.num 1) then [json_dumps_indent2 (Json.num 1)] else []) :=
  (entry_point_output ["h.MQ.s"] "").1 (Json.num 1) [] rfl

/-! ## Stripping lemmas -/

/-- A list fixed by the two-sided strip is fixed by each one-sided strip. -/
theorem strip_fix_parts (d : List Char)
    (h : ((d.dropWhile isPySpace).reverse.dropWhile isPySpace).reverse = d) :
    d.dropWhile isPySpace = d ∧ d.reverse.dropWhile isPySpace = d.reverse := by
  have hlb := congrArg List.length h
  have h1 : ((d.dropWhile isPySpace).reverse.dropWhile isPySpace).length ≤
      (d.dropWhile isPySpace).length := by
    simpa using (List.dropWhile_suffix (l := (d.dropWhile isPySpace).reverse)
      (p := isPySpace)).length_le
  have h2 : (d.dropWhile isPySpace).length ≤ d.length :=
    (List.dropWhile_suffix (p := isPySpace)).length_le
  simp only [List.length_reverse] at hlb
  have hfront : d.dropWhile isPySpace = d :=
    (List.dropWhile_suffix (p := isPySpace)).eq_of_length (by omega)
  refine ⟨hfront, ?_⟩
  rw [hfront] at h
  have h2r := congrArg List.reverse h
  rw [List.reverse_reverse] at h2r
  exact h2r

/-- Appending `"\n"` to a stripped string strips back to it. -/
theorem pyStrip_append_newline (t : String) (h : pyStrip t = t) :
    pyStrip (t ++ "\n") = t := by
  have hd : ((t.data.dropWhile isPySpace).reverse.dropWhile isPySpace).reverse = t.data :=
    congrArg String.data h
  obtain ⟨hfront, hback⟩ := strip_fix_parts t.data hd
  have hdata : (t ++ "\n").data = t.data ++ ['\n'] := by
    rw [String.data_append]
  cases hcd : t.data with
  | nil =>
    have ht : t = "" := by
      have := congrArg String.mk hcd
      simpa using this
    rw [ht]
    rfl
  | cons c d' =>
    have hc : isPySpace c = false := by
      rw [hcd, List.dropWhile_cons] at hfront
      by_cases hcc : isPySpace c
      · rw [if_pos hcc] at hfront
        have hlen := congrArg List.length hfront
        have hle := (List.dropWhile_suffix (l := d') (p := isPySpace)).length_le
        simp only [List.length_cons] at hlen
        omega
      · simpa using hcc
    show String.mk (((((t ++ "\n").data).dropWhile isPySpace).reverse.dropWhile
      isPySpace).reverse) = t
    rw [hdata, hcd, List.cons_append, List.dropWhile_cons, if_neg (by simp [hc]),
      ← List.cons_append, ← hcd]
    have hrev : (t.data ++ ['\n']).reverse = '\n' :: t.data.reverse := by
      simp
    rw [hrev, List.dropWhile_cons, if_pos (by decide), hback, List.reverse_reverse]

/-- **C8.**  With no command-line argument the token is the stripped standard
input, decoded exactly as if passed as the argument; in particular a trailing
newline after an already-stripped token does not affect the result. -/
theorem stdin_token (stdin : String) (t : String) (ht : pyStrip t = t) :
    main_output [] stdin = main_output [pyStrip stdin] "" ∧
    main_output [] (t ++ "\n") = main_output [t] "" := by
  refine ⟨rfl, ?_⟩
  unfold main_output tokenOf
  rw [pyStrip_append_newline t ht]

/-- Witness for C8 at stdin `" x "` and the token `a.MTI.b`. -/
theorem stdin_token_witness :
    main_output [] " x " = main_output [pyStrip " x "] "" ∧
    main_output [] ("a.MTI.b" ++ "\n") = main_output ["a.MTI.b"] "" :=
  stdin_token " x " "a.MTI.b" (by decide)

/-! ## Base64 state-machine lemmas -/

/-- The padding step, as a single conditional. -/
theorem pad_payload_spec (payload : List Char) :
    pad_payload payload = if payload.length % 4 = 0 then payload
      else payload ++ List.replicate (4 - payload.length % 4) '=' := by
  unfold pad_payload
  by_cases h : payload.length % 4 = 0
  · simp [h]
  · have h4 : 4 - payload.length % 4 ≠ 4 := by omega
    simp [h, h4]

/-- Characters the base64 table accepts are ASCII (before the url-safe
translation, `-` and `_` included). -/
theorem ascii_of_b64 (c : Char) (h : (b64val (urlTrans c)).isSome) :
    c.toNat < 128 := by
  by_cases h1 : c = '-'
  · subst h1; decide
  by_cases h2 : c = '_'
  · subst h2; decide
  have ht : urlTrans c = c := by simp [urlTrans, h1, h2]
  rw [ht] at h
  simp only [b64val] at h
  split_ifs at h with ha hb hc hd he
  · omega
  · omega
  · omega
  · subst hd; decide
  · subst he; decide
  · simp at h

/-- Running the decode loop over characters of the base64 alphabet advances
the quantum position by their count (mod 4), whatever bytes come out. -/
theorem a2b_alpha_advance : ∀ (cs : List Char), (∀ c ∈ cs, (b64val c).isSome) →
    ∀ (tail : List Char) (qp lc pads : Nat) (acc : List Nat), qp < 4 →
    ∃ lc' pads' acc', a2b (cs ++ tail) qp lc pads acc =
      a2b tail ((qp + cs.length) % 4) lc' pads' acc'
  | [], _, tail, qp, lc, pads, acc, hqp =>
    ⟨lc, pads, acc, by
      rw [List.nil_append, List.length_nil, Nat.add_zero, Nat.mod_eq_of_lt hqp]⟩
  | c :: cs', h, tail, qp, lc, pads, acc, hqp => by
    obtain ⟨d, hd⟩ := Option.isSome_iff_exists.mp (h c (List.mem_cons_self c cs'))
    have hne : ¬(c = '=') := by
      intro he
      rw [he, show b64val '=' = none from rfl] at hd
      exact Option.noConfusion hd
    have ih := a2b_alpha_advance cs' (fun x hx => h x (List.mem_cons_of_mem c hx)) tail
    rw [List.cons_append]
    interval_cases qp
    · obtain ⟨lc', pads', acc', hih⟩ := ih 1 d 0 acc (by omega)
      refine ⟨lc', pads', acc', ?_⟩
      rw [show a2b (c :: (cs' ++ tail)) 0 lc pads acc = a2b (cs' ++ tail) 1 d 0 acc by
        simp [a2b, hne, hd], hih]
      congr 1
      simp only [List.length_cons]
      omega
    · obtain ⟨lc', pads', acc', hih⟩ := ih 2 (d % 16) 0 ((lc * 4 + d / 16) :: acc) (by omega)
      refine ⟨lc', pads', acc', ?_⟩
      rw [show a2b (c :: (cs' ++ tail)) 1 lc pads acc =
          a2b (cs' ++ tail) 2 (d % 16) 0 ((lc * 4 + d / 16) :: acc) by
        simp [a2b, hne, hd], hih]
      congr 1
      simp only [List.length_cons]
      omega
    · obtain ⟨lc', pads', acc', hih⟩ := ih 3 (d % 4) 0 ((lc * 16 + d / 4) :: acc) (by omega)
      refine ⟨lc', pads', acc', ?_⟩
      rw [show a2b (c :: (cs' ++ tail)) 2 lc pads acc =
          a2b (cs' ++ tail) 3 (d % 4) 0 ((lc * 16 + d / 4) :: acc) by
        simp [a2b, hne, hd], hih]
      congr 1
      simp only [List.length_cons]
      omega
    · obtain ⟨lc', pads', acc', hih⟩ := ih 0 0 0 ((lc * 64 + d) :: acc) (by omega)
      refine ⟨lc', pads', acc', ?_⟩
      rw [show a2b (c :: (cs' ++ tail)) 3 lc pads acc =
          a2b (cs' ++ tail) 0 0 0 ((lc * 64 + d) :: acc) by
        simp [a2b, hne, hd], hih]
      congr 1
      simp only [List.length_cons]
      omega

/-- Three padding characters reaching the loop with one pending data
character: each is skipped (`quadPos < 2`), and the leftover single character
is the distinguished error. -/
theorem a2b_pads_at_one (lc pads : Nat) (acc : List Nat) :
    a2b ['=', '=', '='] 1 lc pads acc =
      .error "Invalid base64-encoded string: number of data characters cannot be 1 more than a multiple of 4" :=
  rfl

/-- **C6 (amended).**  As stated the claim fails: Python's lenient base64
loop skips `=` and out-of-alphabet characters, so a payload of length ≡ 1
(mod 4) can still decode (see the counterexample).  What holds is: for a
three-segment token whose payload consists solely of base64url-alphabet
characters and has length ≡ 1 (mod 4), decoding fails with an
`Error decoding JWT:` diagnostic and no result; and the padding step appends
0, 2 and 1 `'='` characters for lengths ≡ 0, 2 and 3 (mod 4) respectively. -/
theorem invalid_length_padding (hdr payload sig : List Char)
    (hh : '.' ∉ hdr) (hs : '.' ∉ sig)
    (halpha : ∀ c ∈ payload, (b64val (urlTrans c)).isSome)
    (hlen : payload.length % 4 = 1) :
    (∃ e, decode_jwt_payload (String.mk (hdr ++ ('.' :: (payload ++ ('.' :: sig))))) =
      (none, ["Error decoding JWT: " ++ e])) ∧
    (∀ q : List Char, q.length % 4 = 0 → pad_payload q = q) ∧
    (∀ q : List Char, q.length % 4 = 2 → pad_payload q = q ++ ['=', '=']) ∧
    (∀ q : List Char, q.length % 4 = 3 → pad_payload q = q ++ ['=']) := by
  refine ⟨?_, fun q hq => by rw [pad_payload_spec, hq]; rfl,
    fun q hq => by rw [pad_payload_spec, hq]; rfl,
    fun q hq => by rw [pad_payload_spec, hq]; rfl⟩
  have hpd : '.' ∉ payload := by
    intro hm
    have := halpha '.' hm
    rw [show urlTrans '.' = '.' from rfl, show b64val '.' = none from rfl] at this
    simp at this
  have hsplit := splitOnDot_three hdr payload sig hh hpd hs
  have hpad : pad_payload payload = payload ++ ['=', '=', '='] := by
    rw [pad_payload_spec, hlen]
    rfl
  have hascii : ((payload ++ ['=', '=', '=']).all fun c => decide (c.toNat < 128)) = true :=
    List.all_eq_true.mpr fun c hc => by
      rcases List.mem_append.mp hc with h1 | h2
      · simpa using ascii_of_b64 c (halpha c h1)
      · simp only [List.mem_cons, List.not_mem_nil, or_false] at h2
        rcases h2 with rfl | rfl | rfl <;> decide
  have hmap : (payload ++ ['=', '=', '=']).map urlTrans =
      payload.map urlTrans ++ ['=', '=', '='] := by
    rw [List.map_append]
    rfl
  obtain ⟨lc', pads', acc', hadv⟩ :=
    a2b_alpha_advance (payload.map urlTrans)
      (fun c hc => by
        obtain ⟨x, hx, rfl⟩ := List.mem_map.mp hc
        exact halpha x hx)
      ['=', '=', '='] 0 0 0 [] (by omega)
  have hidx : (0 + (payload.map urlTrans).length) % 4 = 1 := by
    rw [List.length_map, Nat.zero_add, hlen]
  have hb64 : urlsafe_b64decode (pad_payload payload) =
      .error "Invalid base64-encoded string: number of data characters cannot be 1 more than a multiple of 4" := by
    rw [hpad]
    unfold urlsafe_b64decode
    rw [if_pos hascii, hmap, hadv, hidx, a2b_pads_at_one]
  refine ⟨"Invalid base64-encoded string: number of data characters cannot be 1 more than a multiple of 4", ?_⟩
  have hsteps : decode_steps payload =
      .error "Invalid base64-encoded string: number of data characters cannot be 1 more than a multiple of 4" := by
    unfold decode_steps
    rw [hb64]
    rfl
  rw [decode_of_split3 _ hdr payload sig hsplit, hsteps]

/-- Counterexample to C6 as stated: the payload `=MQ==` of `h.=MQ==.s` has
length 5 ≡ 1 (mod 4), yet the lenient decoder skips its padding characters
and decodes `MQ` to `1`, so the token decodes successfully. -/
theorem invalid_length_padding_counterexample :
    ("=MQ==".data.length % 4 = 1) ∧
    splitOnDot "h.=MQ==.s".data = [['h'], "=MQ==".data, ['s']] ∧
    decode_jwt_payload "h.=MQ==.s" = (some (Json.num 1), []) :=
  ⟨rfl, rfl, rfl⟩

/-- Witness for C6 (amended) at the token `a.AAAAA.b`. -/
theorem invalid_length_padding_witness :
    ∃ e, decode_jwt_payload
        (String.mk (['a'] ++ ('.' :: (['A', 'A', 'A', 'A', 'A'] ++ ('.' :: ['b']))))) =
      (none, ["Error decoding JWT: " ++ e]) :=
  (invalid_length_padding ['a'] ['A', 'A', 'A', 'A', 'A'] ['b']
    (by decide) (by decide) (by decide) (by decide)).1

/-! ## Base64 round-trip -/

/-- Decoding inverts the url-safe alphabet on each 6-bit value. -/
theorem b64val_urlTrans_b64urlChar : ∀ v : Nat, v < 64 →
    b64val (urlTrans (b64urlChar v)) = some v := by decide

/-- The url-safe alphabet is ASCII. -/
theorem b64urlChar_ascii : ∀ v : Nat, v < 64 → (b64urlChar v).toNat < 128 := by decide

/-- The url-safe alphabet avoids `'.'` and `'='`. -/
theorem b64urlChar_ne : ∀ v : Nat, v < 64 →
    b64urlChar v ≠ '.' ∧ b64urlChar v ≠ '=' := by decide

/-- One data character at quantum position 0. -/
theorem a2b_cons0 (c : Char) (d : Nat) (hd : b64val c = some d)
    (cs : List Char) (lc pads : Nat) (acc : List Nat) :
    a2b (c :: cs) 0 lc pads acc = a2b cs 1 d 0 acc := by
  have hne : ¬(c = '=') := by
    intro he
    rw [he, show b64val '=' = none from rfl] at hd
    exact Option.noConfusion hd
  simp [a2b, hne, hd]

/-- One data character at quantum position 1: a byte comes out. -/
theorem a2b_cons1 (c : Char) (d : Nat) (hd : b64val c = some d)
    (cs : List Char) (lc pads : Nat) (acc : List Nat) :
    a2b (c :: cs) 1 lc pads acc = a2b cs 2 (d % 16) 0 ((lc * 4 + d / 16) :: acc) := by
  have hne : ¬(c = '=') := by
    intro he
    rw [he, show b64val '=' = none from rfl] at hd
    exact Option.noConfusion hd
  simp [a2b, hne, hd]

/-- One data character at quantum position 2: a byte comes out. -/
theorem a2b_cons2 (c : Char) (d : Nat) (hd : b64val c = some d)
    (cs : List Char) (lc pads : Nat) (acc : List Nat) :
    a2b (c :: cs) 2 lc pads acc = a2b cs 3 (d % 4) 0 ((lc * 16 + d / 4) :: acc) := by
  have hne : ¬(c = '=') := by
    intro he
    rw [he, show b64val '=' = none from rfl] at hd
    exact Option.noConfusion hd
  simp [a2b, hne, hd]

/-- One data character at quantum position 3: the quantum closes. -/
theorem a2b_cons3 (c : Char) (d : Nat) (hd : b64val c = some d)
    (cs : List Char) (lc pads : Nat) (acc : List Nat) :
    a2b (c :: cs) 3 lc pads acc = a2b cs 0 0 0 ((lc * 64 + d) :: acc) := by
  have hne : ¬(c = '=') := by
    intro he
    rw [he, show b64val '=' = none from rfl] at hd
    exact Option.noConfusion hd
  simp [a2b, hne, hd]

/-- A full encoded quantum decodes back to its three bytes. -/
theorem a2b_quad (b1 b2 b3 : Nat) (h1 : b1 < 256) (h2 : b2 < 256) (h3 : b3 < 256)
    (rest : List Char) (lc pads : Nat) (acc : List Nat) :
    a2b (urlTrans (b64urlChar (b1 / 4)) :: urlTrans (b64urlChar (b1 % 4 * 16 + b2 / 16)) ::
        urlTrans (b64urlChar (b2 % 16 * 4 + b3 / 64)) :: urlTrans (b64urlChar (b3 % 64)) :: rest)
      0 lc pads acc = a2b rest 0 0 0 (b3 :: b2 :: b1 :: acc) := by
  rw [a2b_cons0 _ _ (b64val_urlTrans_b64urlChar _ (by omega)),
    a2b_cons1 _ _ (b64val_urlTrans_b64urlChar _ (by omega)),
    a2b_cons2 _ _ (b64val_urlTrans_b64urlChar _ (by omega)),
    a2b_cons3 _ _ (b64val_urlTrans_b64urlChar _ (by omega))]
  have e1 : b1 / 4 * 4 + (b1 % 4 * 16 + b2 / 16) / 16 = b1 := by omega
  have e2 : (b1 % 4 * 16 + b2 / 16) % 16 * 16 + (b2 % 16 * 4 + b3 / 64) / 4 = b2 := by omega
  have e3 : (b2 % 16 * 4 + b3 / 64) % 4 * 64 + b3 % 64 = b3 := by omega
  rw [e1, e2, e3]

/-- Two padding characters close a quantum at position 2. -/
theorem a2b_pad2 (lc : Nat) (acc : List Nat) :
    a2b ['=', '='] 2 lc 0 acc = .ok acc.reverse := rfl

/-- One padding character closes a quantum at position 3. -/
theorem a2b_pad1 (lc : Nat) (acc : List Nat) :
    a2b ['='] 3 lc 0 acc = .ok acc.reverse := rfl

/-- A final single encoded byte (two characters) plus two pads decodes to it. -/
theorem a2b_tail1 (b1 : Nat) (h1 : b1 < 256) (lc pads : Nat) (acc : List Nat) :
    a2b (urlTrans (b64urlChar (b1 / 4)) :: urlTrans (b64urlChar (b1 % 4 * 16)) :: ['=', '='])
      0 lc pads acc = .ok (acc.reverse ++ [b1]) := by
  rw [a2b_cons0 _ _ (b64val_urlTrans_b64urlChar _ (by omega)),
    a2b_cons1 _ _ (b64val_urlTrans_b64urlChar _ (by omega)),
    a2b_pad2]
  have e1 : b1 / 4 * 4 + b1 % 4 * 16 / 16 = b1 := by omega
  rw [e1, List.reverse_cons]

/-- A final two encoded bytes (three characters) plus one pad decode to them. -/
theorem a2b_tail2 (b1 b2 : Nat) (h1 : b1 < 256) (h2 : b2 < 256)
    (lc pads : Nat) (acc : List Nat) :
    a2b (urlTrans (b64urlChar (b1 / 4)) :: urlTrans (b64urlChar (b1 % 4 * 16 + b2 / 16)) ::
        urlTrans (b64urlChar (b2 % 16 * 4)) :: ['='])
      0 lc pads acc = .ok (acc.reverse ++ [b1, b2]) := by
  rw [a2b_cons0 _ _ (b64val_urlTrans_b64urlChar _ (by omega)),
    a2b_cons1 _ _ (b64val_urlTrans_b64urlChar _ (by omega)),
    a2b_cons2 _ _ (b64val_urlTrans_b64urlChar _ (by omega)),
    a2b_pad1]
  have e1 : b1 / 4 * 4 + (b1 % 4 * 16 + b2 / 16) / 16 = b1 := by omega
  have e2 : (b1 % 4 * 16 + b2 / 16) % 16 * 16 + b2 % 16 * 4 / 4 = b2 := by omega
  rw [e1, e2]
  simp

/-- Every character the encoder emits names a 6-bit value. -/
theorem b64urlEncode_chars : ∀ (bs : List Nat), (∀ b ∈ bs, b < 256) →
    ∀ c ∈ b64urlEncode bs, ∃ v, v < 64 ∧ c = b64urlChar v
  | [], _, c, hc => absurd hc (by simp [b64urlEncode])
  | [b1], h, c, hc => by
    have hb1 := h b1 (by simp)
    simp only [b64urlEncode, List.mem_cons, List.not_mem_nil, or_false] at hc
    rcases hc with rfl | rfl
    · exact ⟨b1 / 4, by omega, rfl⟩
    · exact ⟨b1 % 4 * 16, by omega, rfl⟩
  | [b1, b2], h, c, hc => by
    have hb1 := h b1 (by simp)
    have hb2 := h b2 (by simp)
    simp only [b64urlEncode, List.mem_cons, List.not_mem_nil, or_false] at hc
    rcases hc with rfl | rfl | rfl
    · exact ⟨b1 / 4, by omega, rfl⟩
    · exact ⟨b1 % 4 * 16 + b2 / 16, by omega, rfl⟩
    · exact ⟨b2 % 16 * 4, by omega, rfl⟩
  | b1 :: b2 :: b3 :: rest, h, c, hc => by
    have hb1 := h b1 (by simp)
    have hb2 := h b2 (by simp)
    have hb3 := h b3 (by simp)
    simp only [b64urlEncode, List.mem_cons] at hc
    rcases hc with rfl | rfl | rfl | rfl | hmem
    · exact ⟨b1 / 4, by omega, rfl⟩
    · exact ⟨b1 % 4 * 16 + b2 / 16, by omega, rfl⟩
    · exact ⟨b2 % 16 * 4 + b3 / 64, by omega, rfl⟩
    · exact ⟨b3 % 64, by omega, rfl⟩
    · exact b64urlEncode_chars rest (fun b hb => h b (by simp [hb])) c hmem

/-- Length of the unpadded encoding: 4 characters per 3 bytes plus a tail of
0, 2 or 3. -/
theorem b64urlEncode_length : ∀ bs : List Nat,
    (b64urlEncode bs).length % 4 = 0 ∨ (b64urlEncode bs).length % 4 = 2 ∨
      (b64urlEncode bs).length % 4 = 3
  | [] => .inl rfl
  | [_] => .inr (.inl rfl)
  | [_, _] => .inr (.inr rfl)
  | b1 :: b2 :: b3 :: rest => by
    have ih := b64urlEncode_length rest
    have hlen : (b64urlEncode (b1 :: b2 :: b3 :: rest)).length =
        4 + (b64urlEncode rest).length := by
      simp [b64urlEncode]
      omega
    rw [hlen]
    omega

/-- Decoding the translated encoding plus the padding the script computes
returns the original bytes, whatever is already accumulated. -/
theorem a2b_enc : ∀ (bs : List Nat), (∀ b ∈ bs, b < 256) → ∀ acc : List Nat,
    a2b (List.map urlTrans (b64urlEncode bs) ++
        List.replicate ((4 - (b64urlEncode bs).length % 4) % 4) '=') 0 0 0 acc
      = .ok (acc.reverse ++ bs)
  | [], _, acc => by simp [b64urlEncode, a2b]
  | [b1], h, acc => by
    have hb1 := h b1 (by simp)
    have := a2b_tail1 b1 hb1 0 0 acc
    simpa [b64urlEncode, List.map] using this
  | [b1, b2], h, acc => by
    have hb1 := h b1 (by simp)
    have hb2 := h b2 (by simp)
    have := a2b_tail2 b1 b2 hb1 hb2 0 0 acc
    simpa [b64urlEncode, List.map] using this
  | b1 :: b2 :: b3 :: rest, h, acc => by
    have hb1 := h b1 (by simp)
    have hb2 := h b2 (by simp)
    have hb3 := h b3 (by simp)
    have hlen : (b64urlEncode (b1 :: b2 :: b3 :: rest)).length =
        4 + (b64urlEncode rest).length := by simp [b64urlEncode]; omega
    have hmod : (4 - (b64urlEncode (b1 :: b2 :: b3 :: rest)).length % 4) % 4 =
        (4 - (b64urlEncode rest).length % 4) % 4 := by rw [hlen]; omega
    have ih := a2b_enc rest (fun b hb => h b (by simp [hb])) (b3 :: b2 :: b1 :: acc)
    rw [hmod, show b64urlEncode (b1 :: b2 :: b3 :: rest) =
        b64urlChar (b1 / 4) :: b64urlChar (b1 % 4 * 16 + b2 / 16) ::
          b64urlChar (b2 % 16 * 4 + b3 / 64) :: b64urlChar (b3 % 64) ::
          b64urlEncode rest from rfl]
    simp only [List.map_cons, List.cons_append]
    rw [a2b_quad b1 b2 b3 hb1 hb2 hb3, ih]
    simp

/-- **Base64 round-trip**: `urlsafe_b64decode` of the padded unpadded-base64url
encoding returns the original bytes. -/
theorem b64url_roundtrip (bs : List Nat) (h : ∀ b ∈ bs, b < 256) :
    urlsafe_b64decode (pad_payload (b64urlEncode bs)) = .ok bs := by
  have hpad : pad_payload (b64urlEncode bs) = b64urlEncode bs ++
      List.replicate ((4 - (b64urlEncode bs).length % 4) % 4) '=' := by
    rw [pad_payload_spec]
    by_cases h0 : (b64urlEncode bs).length % 4 = 0
    · simp [h0]
    · have : (4 - (b64urlEncode bs).length % 4) % 4 =
          4 - (b64urlEncode bs).length % 4 := by omega
      simp [h0, this]
  have hascii : ((pad_payload (b64urlEncode bs)).all fun c => decide (c.toNat < 128)) = true := by
    rw [hpad]
    refine List.all_eq_true.mpr fun c hc => ?_
    rcases List.mem_append.mp hc with h1 | h2
    · obtain ⟨v, hv, rfl⟩ := b64urlEncode_chars bs h c h1
      simpa using b64urlChar_ascii v hv
    · rw [List.eq_of_mem_replicate h2]
      decide
  unfold urlsafe_b64decode
  rw [if_pos hascii, hpad, List.map_append,
    show List.map urlTrans (List.replicate ((4 - (b64urlEncode bs).length % 4) % 4) '=') =
      List.replicate ((4 - (b64urlEncode bs).length % 4) % 4) '=' by
        rw [List.map_replicate, show urlTrans '=' = '=' from rfl]]
  simpa using a2b_enc bs h []

/-! ## UTF-8 on ASCII text -/

/-- Encoding ASCII characters is the identity on code points. -/
theorem utf8Encode_ascii : ∀ cs : List Char, (∀ c ∈ cs, c.toNat < 128) →
    cs.flatMap utf8EncodeChar = cs.map Char.toNat
  | [], _ => rfl
  | c :: cs, h => by
    have hc : c.toNat < 128 := h c (by simp)
    have ih := utf8Encode_ascii cs (fun x hx => h x (by simp [hx]))
    simp only [List.flatMap_cons, List.map_cons, ih]
    rw [show utf8EncodeChar c = [c.toNat] from by unfold utf8EncodeChar; rw [if_pos (by omega)]]
    rfl

/-- An ASCII byte steps the decoder by one character. -/
theorem utf8Decode_cons_ascii (b : Nat) (hb : b < 0x80) (bs : List Nat) :
    utf8Decode (b :: bs) = (utf8Decode bs).map (fun cs => Char.ofNat b :: cs) := by
  unfold utf8Decode
  rw [show utf8Run (b :: bs) 0 0 0 0 = if b < 0x80 then
      (utf8Run bs 0 0 0 0).map (fun cs => Char.ofNat b :: cs)
    else if 0xc2 ≤ b && b ≤ 0xdf then utf8Run bs 1 (b - 0xc0) 0x80 0xbf
    else if b = 0xe0 then utf8Run bs 2 0 0xa0 0xbf
    else if b = 0xed then utf8Run bs 2 13 0x80 0x9f
    else if 0xe1 ≤ b && b ≤ 0xef then utf8Run bs 2 (b - 0xe0) 0x80 0xbf
    else if b = 0xf0 then utf8Run bs 3 0 0x90 0xbf
    else if b = 0xf4 then utf8Run bs 3 4 0x80 0x8f
    else if 0xf1 ≤ b && b ≤ 0xf3 then utf8Run bs 3 (b - 0xf0) 0x80 0xbf
    else .error "invalid start byte" from rfl, if_pos hb]

/-- Decoding ASCII bytes recovers the characters. -/
theorem utf8Decode_ascii : ∀ cs : List Char, (∀ c ∈ cs, c.toNat < 128) →
    utf8Decode (cs.map Char.toNat) = .ok cs
  | [], _ => rfl
  | c :: cs, h => by
    have hc : c.toNat < 128 := h c (by simp)
    have ih := utf8Decode_ascii cs (fun x hx => h x (by simp [hx]))
    simp only [List.map_cons]
    rw [utf8Decode_cons_ascii c.toNat (by omega), ih, Char.ofNat_toNat]
    rfl

/-! ## The serializer emits ASCII -/

/-- Every scalar value is outside the surrogate range and below `0x110000`. -/
theorem char_toNat_range (c : Char) :
    c.toNat < 0xd800 ∨ (0xe000 ≤ c.toNat ∧ c.toNat < 0x110000) := by
  have h := c.valid
  simp [UInt32.isValidChar, Nat.isValidChar, Char.toNat] at h
  exact h

/-- Hex digit characters are ASCII. -/
theorem hexDigitCh_ascii (d : Nat) (h : d < 16) : (hexDigitCh d).toNat < 128 := by
  interval_cases d <;> decide

/-- Decimal digit characters are ASCII. -/
theorem decDigitChar_ascii (d : Nat) (h : d < 10) : (decDigitChar d).toNat < 128 := by
  interval_cases d <;> decide

/-- Hex bodies are ASCII. -/
theorem hex4Chars_ascii (n : Nat) : ∀ x ∈ hex4Chars n, x.toNat < 128 := by
  intro x hx
  simp only [hex4Chars, List.mem_cons, List.not_mem_nil, or_false] at hx
  rcases hx with rfl | rfl | rfl | rfl <;> exact hexDigitCh_ascii _ (by omega)

/-- The characters of an escaped character are ASCII. -/
theorem escChar_ascii (c : Char) : ∀ x ∈ escChar c, x.toNat < 128 := by
  intro x hx
  unfold escChar at hx
  by_cases h1 : c = '"'
  · rw [if_pos h1] at hx
    rcases (by simpa using hx : x = '\\' ∨ x = '"') with rfl | rfl <;> decide
  rw [if_neg h1] at hx
  by_cases h2 : c = '\\'
  · rw [if_pos h2] at hx
    rcases (by simpa using hx : x = '\\' ∨ x = '\\') with rfl | rfl <;> decide
  rw [if_neg h2] at hx
  by_cases h3 : c = '\x08'
  · rw [if_pos h3] at hx
    rcases (by simpa using hx : x = '\\' ∨ x = 'b') with rfl | rfl <;> decide
  rw [if_neg h3] at hx
  by_cases h4 : c = '\x0c'
  · rw [if_pos h4] at hx
    rcases (by simpa using hx : x = '\\' ∨ x = 'f') with rfl | rfl <;> decide
  rw [if_neg h4] at hx
  by_cases h5 : c = '\n'
  · rw [if_pos h5] at hx
    rcases (by simpa using hx : x = '\\' ∨ x = 'n') with rfl | rfl <;> decide
  rw [if_neg h5] at hx
  by_cases h6 : c = '\x0d'
  · rw [if_pos h6] at hx
    rcases (by simpa using hx : x = '\\' ∨ x = 'r') with rfl | rfl <;> decide
  rw [if_neg h6] at hx
  by_cases h7 : c = '\t'
  · rw [if_pos h7] at hx
    rcases (by simpa using hx : x = '\\' ∨ x = 't') with rfl | rfl <;> decide
  rw [if_neg h7] at hx
  by_cases h8 : 32 ≤ c.toNat ∧ c.toNat ≤ 126
  · rw [if_pos h8] at hx
    have hxc : x = c := by simpa using hx
    rw [hxc]
    omega
  rw [if_neg h8] at hx
  by_cases h9 : c.toNat < 65536
  · rw [if_pos h9] at hx
    simp only [List.mem_cons] at hx
    rcases hx with rfl | rfl | hx
    · decide
    · decide
    · exact hex4Chars_ascii _ x hx
  rw [if_neg h9] at hx
  simp only [List.cons_append, List.mem_cons, List.mem_append] at hx
  rcases hx with rfl | rfl | hx | rfl | rfl | hx
  · decide
  · decide
  · exact hex4Chars_ascii _ x hx
  · decide
  · decide
  · exact hex4Chars_ascii _ x hx

/-- The characters of a printed natural number are ASCII (digits). -/
theorem natDigitsAux_ascii : ∀ (fuel n : Nat) (acc : List Char),
    (∀ x ∈ acc, x.toNat < 128) → ∀ x ∈ natDigitsAux fuel n acc, x.toNat < 128
  | 0, n, acc, hacc, x, hx => by
    simp only [natDigitsAux, List.mem_cons] at hx
    rcases hx with rfl | hx
    · exact decDigitChar_ascii _ (by omega)
    · exact hacc x hx
  | fuel + 1, n, acc, hacc, x, hx => by
    simp only [natDigitsAux] at hx
    split_ifs at hx with h
    · simp only [List.mem_cons] at hx
      rcases hx with rfl | hx
      · exact decDigitChar_ascii _ (by omega)
      · exact hacc x hx
    · refine natDigitsAux_ascii fuel (n / 10) _ ?_ x hx
      intro y hy
      simp only [List.mem_cons] at hy
      rcases hy with rfl | hy
      · exact decDigitChar_ascii _ (by omega)
      · exact hacc y hy

/-- The characters of a printed integer are ASCII. -/
theorem dumpInt_ascii (i : Int) : ∀ x ∈ dumpInt i, x.toNat < 128 := by
  intro x hx
  unfold dumpInt at hx
  split_ifs at hx with h
  · simp only [List.mem_cons] at hx
    rcases hx with rfl | hx
    · decide
    · exact natDigitsAux_ascii _ _ [] (by simp) x hx
  · exact natDigitsAux_ascii _ _ [] (by simp) x hx

/-- The characters of a serialized string literal are ASCII. -/
theorem dumpStr_ascii (s : String) : ∀ x ∈ dumpStr s, x.toNat < 128 := by
  intro x hx
  simp only [dumpStr, List.mem_cons, List.mem_append, List.not_mem_nil, or_false,
    List.mem_flatMap] at hx
  rcases hx with rfl | ⟨c, _, hc⟩ | rfl
  · decide
  · exact escChar_ascii c x hc
  · decide

/-! ## Number round-trip -/

/-- Accumulator shifting for the digit printer. -/
theorem natDigitsAux_acc : ∀ (fuel n : Nat) (acc : List Char),
    natDigitsAux fuel n acc = natDigitsAux fuel n [] ++ acc
  | 0, n, acc => rfl
  | fuel + 1, n, acc => by
    simp only [natDigitsAux]
    split_ifs with h
    · rfl
    · rw [natDigitsAux_acc fuel (n / 10) [decDigitChar (n % 10)],
        natDigitsAux_acc fuel (n / 10) (decDigitChar (n % 10) :: acc)]
      simp

/-- The digit printer ignores extra fuel. -/
theorem natDigitsAux_extra : ∀ (n : Nat), ∀ (fuel1 fuel2 : Nat), n ≤ fuel1 → n ≤ fuel2 →
    ∀ acc, natDigitsAux fuel1 n acc = natDigitsAux fuel2 n acc := by
  intro n
  induction n using Nat.strong_induction_on with
  | _ n ih =>
    intro fuel1 fuel2 h1 h2 acc
    match fuel1, fuel2 with
    | 0, 0 => rfl
    | 0, f2 + 1 =>
      have hn : n < 10 := by omega
      simp [natDigitsAux, hn, Nat.mod_eq_of_lt hn]
    | f1 + 1, 0 =>
      have hn : n < 10 := by omega
      simp [natDigitsAux, hn, Nat.mod_eq_of_lt hn]
    | f1 + 1, f2 + 1 =>
      simp only [natDigitsAux]
      split_ifs with h
      · rfl
      · exact ih (n / 10) (by omega) f1 f2 (by omega) (by omega) _

/-- The recurrence of the digit printer. -/
theorem natDigits_step (n : Nat) : natDigits n =
    if n < 10 then [decDigitChar n]
    else natDigits (n / 10) ++ [decDigitChar (n % 10)] := by
  unfold natDigits
  split_ifs with h
  · match n, h with
    | 0, _ => rfl
    | n + 1, h => simp [natDigitsAux, h]
  · have hn1 : 1 ≤ n := by omega
    calc natDigitsAux n n []
        = natDigitsAux (n - 1 + 1) n [] := by rw [Nat.sub_add_cancel (by omega)]
      _ = natDigitsAux (n - 1) (n / 10) [decDigitChar (n % 10)] := by
          simp [natDigitsAux, h]
      _ = natDigitsAux (n / 10) (n / 10) [decDigitChar (n % 10)] :=
          natDigitsAux_extra (n / 10) (n - 1) (n / 10) (by omega) (le_refl _) _
      _ = natDigitsAux (n / 10) (n / 10) [] ++ [decDigitChar (n % 10)] :=
          natDigitsAux_acc _ _ _

/-- Facts about one digit character. -/
theorem decDigitChar_isDigit (d : Nat) (h : d < 10) :
    isDigitCh (decDigitChar d) = true ∧ (decDigitChar d).toNat - 48 = d ∧
      (decDigitChar d) ≠ '-' ∧ (1 ≤ d → decDigitChar d ≠ '0') := by
  interval_cases d <;> exact ⟨rfl, rfl, by decide, fun h1 => by revert h1; decide⟩

/-- Every printed digit is a digit character. -/
theorem natDigits_all (n : Nat) : ∀ c ∈ natDigits n, ∃ d, d < 10 ∧ c = decDigitChar d := by
  induction n using Nat.strong_induction_on with
  | _ n ih =>
    intro c hc
    rw [natDigits_step] at hc
    split_ifs at hc with h
    · simp only [List.mem_cons, List.not_mem_nil, or_false] at hc
      exact ⟨n, h, hc⟩
    · rcases List.mem_append.mp hc with h1 | h2
      · exact ih (n / 10) (by omega) c h1
      · simp only [List.mem_cons, List.not_mem_nil, or_false] at h2
        exact ⟨n % 10, by omega, h2⟩

/-- The printed number starts with a digit, nonzero when the number is. -/
theorem natDigits_head (n : Nat) : ∃ d t, natDigits n = decDigitChar d :: t ∧
    d < 10 ∧ (1 ≤ n → 1 ≤ d) := by
  induction n using Nat.strong_induction_on with
  | _ n ih =>
    rw [natDigits_step]
    split_ifs with h
    · exact ⟨n, [], rfl, h, fun h1 => h1⟩
    · obtain ⟨d, t, heq, hd, h1⟩ := ih (n / 10) (by omega)
      exact ⟨d, t ++ [decDigitChar (n % 10)], by rw [heq]; rfl, hd,
        fun _ => h1 (by omega)⟩

/-- Folding the parse step over the printed digits recovers the number. -/
theorem natDigits_foldl (n : Nat) : ∀ a : Nat,
    List.foldl (fun acc c => acc * 10 + (c.toNat - 48)) a (natDigits n) =
      a * 10 ^ (natDigits n).length + n := by
  induction n using Nat.strong_induction_on with
  | _ n ih =>
    intro a
    rw [natDigits_step]
    split_ifs with h
    · simp [List.foldl, (decDigitChar_isDigit n h).2.1]
    · rw [List.foldl_append, ih (n / 10) (by omega), List.length_append]
      simp only [List.foldl_cons, List.foldl_nil, List.length_cons, List.length_nil,
        (decDigitChar_isDigit (n % 10) (by omega)).2.1, Nat.zero_add]
      have hr : (a * 10 ^ (natDigits (n / 10)).length + n / 10) * 10 + n % 10 =
          a * (10 ^ (natDigits (n / 10)).length * 10) + (n / 10 * 10 + n % 10) := by
        ring
      rw [hr, ← pow_succ, show n / 10 * 10 + n % 10 = n from by omega]

/-- A separator or closer context stops the digit scan and is not a float
continuation. -/
theorem restOk_stop (cs : List Char) (h : restOk cs) :
    (∀ a : Nat, digitsAcc a cs = (a, cs)) ∧ hasFracExp cs = false := by
  rcases h with rfl | ⟨c, t, rfl, hc⟩
  · exact ⟨fun a => rfl, rfl⟩
  · rcases hc with rfl | rfl | rfl
    · exact ⟨fun a => rfl, rfl⟩
    · exact ⟨fun a => rfl, rfl⟩
    · exact ⟨fun a => rfl, rfl⟩

/-- The greedy digit scan consumes exactly a digit block. -/
theorem digitsAcc_digits : ∀ (ds : List Char),
    (∀ c ∈ ds, ∃ d, d < 10 ∧ c = decDigitChar d) → ∀ (a : Nat) (rest : List Char),
    restOk rest → digitsAcc a (ds ++ rest) =
      (List.foldl (fun acc c => acc * 10 + (c.toNat - 48)) a ds, rest)
  | [], _, a, rest, hrest => by
    simpa using (restOk_stop rest hrest).1 a
  | c :: ds, h, a, rest, hrest => by
    obtain ⟨d, hd, rfl⟩ := h c (by simp)
    have ih := digitsAcc_digits ds (fun x hx => h x (by simp [hx])) (a * 10 + d) rest hrest
    simp only [List.cons_append, digitsAcc, (decDigitChar_isDigit d hd).1, if_true,
      List.foldl_cons, (decDigitChar_isDigit d hd).2.1]
    exact ih

/-- The integer scanner reads back a printed natural number. -/
theorem parseUInt_natDigits (n : Nat) (rest : List Char) (hrest : restOk rest) :
    parseUInt (natDigits n ++ rest) = some (n, rest) := by
  match n with
  | 0 =>
    rw [show natDigits 0 ++ rest = '0' :: rest from rfl]
    simp [parseUInt]
  | n + 1 =>
    obtain ⟨d, t, heq, hd, h1⟩ := natDigits_head (n + 1)
    have hd1 : 1 ≤ d := h1 (by omega)
    have htd : ∀ c ∈ t, ∃ d, d < 10 ∧ c = decDigitChar d := by
      intro c hc
      exact natDigits_all (n + 1) c (by rw [heq]; simp [hc])
    rw [heq, List.cons_append]
    simp only [parseUInt, (decDigitChar_isDigit d hd).2.2.2 hd1, if_false,
      (decDigitChar_isDigit d hd).1, if_true, (decDigitChar_isDigit d hd).2.1,
      digitsAcc_digits t htd d rest hrest]
    have hv := natDigits_foldl (n + 1) 0
    rw [heq] at hv
    simp only [List.foldl_cons, (decDigitChar_isDigit d hd).2.1, Nat.zero_mul,
      Nat.zero_add] at hv
    rw [hv]

/-- The number parser reads back a printed integer. -/
theorem parseNumber_dumpInt (i : Int) (rest : List Char) (hrest : restOk rest) :
    parseNumber (dumpInt i ++ rest) = .ok (.num i, rest) := by
  unfold dumpInt
  split_ifs with hneg
  · rw [List.cons_append]
    simp only [parseNumber, if_pos rfl,
      parseUInt_natDigits i.natAbs rest hrest, (restOk_stop rest hrest).2,
      Bool.false_eq_true, if_false]
    rw [show ((i.natAbs : Int)) = -i from Int.ofNat_natAbs_of_nonpos (by omega), neg_neg]
    exact if_pos trivial
  · obtain ⟨d, t, heq, hd, _⟩ := natDigits_head i.toNat
    have htd : ∀ c ∈ t, ∃ e, e < 10 ∧ c = decDigitChar e := by
      intro c hc
      exact natDigits_all i.toNat c (by rw [heq]; simp [hc])
    rw [heq, List.cons_append]
    simp only [parseNumber, (decDigitChar_isDigit d hd).2.2.1, if_false]
    rw [← List.cons_append, ← heq, parseUInt_natDigits i.toNat rest hrest]
    simp only [(restOk_stop rest hrest).2, Bool.false_eq_true, if_false]
    rw [Int.toNat_of_nonneg (by omega)]

/-- `_scan_once` on a digit dispatches to the number parser. -/
theorem parseValue_digitChar (d : Nat) (hd : d < 10) (f : Nat) (rest : List Char) :
    parseValue (f + 1) (decDigitChar d :: rest) = parseNumber (decDigitChar d :: rest) := by
  interval_cases d <;> rfl

/-- `_scan_once` on `-` dispatches to the number parser. -/
theorem parseValue_dash (f : Nat) (rest : List Char) :
    parseValue (f + 1) ('-' :: rest) = parseNumber ('-' :: rest) := rfl

/-- `_scan_once` reads back a printed integer. -/
theorem parseValue_num (i : Int) (f : Nat) (rest : List Char) (hrest : restOk rest) :
    parseValue (f + 1) (dumpInt i ++ rest) = .ok (.num i, rest) := by
  rw [← parseNumber_dumpInt i rest hrest]
  unfold dumpInt
  split_ifs with hneg
  · rw [List.cons_append, parseValue_dash]
  · obtain ⟨d, t, heq, hd, _⟩ := natDigits_head i.toNat
    rw [heq, List.cons_append, parseValue_digitChar d hd]

/-! ## String literal round-trip -/

/-- Reading back a hex digit. -/
theorem hexVal_hexDigitCh : ∀ d : Nat, d < 16 → hexVal (hexDigitCh d) = some d := by decide

/-- `hex4` as nested binds. -/
theorem hex4_eq (a b c d : Char) : hex4 a b c d =
    (hexVal a).bind (fun v1 => (hexVal b).bind (fun v2 =>
      (hexVal c).bind (fun v3 => (hexVal d).bind (fun v4 =>
        some (v1 * 4096 + v2 * 256 + v3 * 16 + v4))))) := rfl

/-- Reading back a four-digit hex body. -/
theorem hex4_hex4Chars (n : Nat) (h : n < 0x10000) :
    hex4 (hexDigitCh (n / 4096 % 16)) (hexDigitCh (n / 256 % 16))
      (hexDigitCh (n / 16 % 16)) (hexDigitCh (n % 16)) = some n := by
  rw [hex4_eq, hexVal_hexDigitCh (n / 4096 % 16) (by omega),
    hexVal_hexDigitCh (n / 256 % 16) (by omega),
    hexVal_hexDigitCh (n / 16 % 16) (by omega),
    hexVal_hexDigitCh (n % 16) (by omega)]
  exact congrArg some (by omega)

/-- A lone `\uXXXX` escape of a non-surrogate value decodes to that value,
whatever follows. -/
theorem escStep_u (h1 h2 h3 h4 : Char) (u : Nat) (hh : hex4 h1 h2 h3 h4 = some u)
    (hs : ¬(0xd800 ≤ u ∧ u ≤ 0xdfff)) (X : List Char) :
    escStep ('u' :: h1 :: h2 :: h3 :: h4 :: X) = .ok (Char.ofNat u, X) := by
  have t1 : ¬(0xd800 ≤ u ∧ u ≤ 0xdbff) := fun hc => hs ⟨hc.1, by omega⟩
  have t2 : ¬(0xdc00 ≤ u ∧ u ≤ 0xdfff) := fun hc => hs ⟨by omega, hc.2⟩
  unfold escStep
  split
  · rename_i a1 a2 a3 a4 g1 g2 g3 g4 cs4 heq
    simp only [List.cons.injEq] at heq
    obtain ⟨-, rfl, rfl, rfl, rfl, rfl⟩ := heq
    simp [hh, t1, t2]
  · rename_i a1 a2 a3 a4 cs3 heq
    simp only [List.cons.injEq] at heq
    obtain ⟨-, rfl, rfl, rfl, rfl, rfl⟩ := heq
    simp [hh, hs]
  · rename_i a tail hn1 hn2 heq
    have htail : h1 :: h2 :: h3 :: h4 :: X = tail := by
      injection heq
    exact (hn2 h1 h2 h3 h4 X htail.symm).elim
  · rename_i a e cs2 hn1 hn2 hn3 heq
    have he : 'u' = e := by
      injection heq
    exact (hn3 he.symm).elim
  · rename_i a heq
    exact List.noConfusion heq

/-- A surrogate-pair escape decodes to the combined scalar value. -/
theorem escStep_pair (h1 h2 h3 h4 g1 g2 g3 g4 : Char) (hi lo : Nat)
    (hhi : hex4 h1 h2 h3 h4 = some hi) (hlo : hex4 g1 g2 g3 g4 = some lo)
    (hir : 0xd800 ≤ hi ∧ hi ≤ 0xdbff) (hlr : 0xdc00 ≤ lo ∧ lo ≤ 0xdfff) (X : List Char) :
    escStep ('u' :: h1 :: h2 :: h3 :: h4 :: '\\' :: 'u' :: g1 :: g2 :: g3 :: g4 :: X) =
      .ok (Char.ofNat (0x10000 + (hi - 0xd800) * 0x400 + (lo - 0xdc00)), X) := by
  rw [show escStep ('u' :: h1 :: h2 :: h3 :: h4 :: '\\' :: 'u' :: g1 :: g2 :: g3 :: g4 :: X) =
      (match hex4 h1 h2 h3 h4 with
       | none => .error "Invalid hex escape"
       | some u =>
         if 0xd800 ≤ u ∧ u ≤ 0xdbff then
           match hex4 g1 g2 g3 g4 with
           | none => .error "Invalid hex escape"
           | some u2 =>
             if 0xdc00 ≤ u2 ∧ u2 ≤ 0xdfff then
               .ok (Char.ofNat (0x10000 + (u - 0xd800) * 0x400 + (u2 - 0xdc00)), X)
             else .error "unpaired surrogate escape not representable"
         else if 0xdc00 ≤ u ∧ u ≤ 0xdfff then .error "unpaired surrogate escape not representable"
         else .ok (Char.ofNat u, '\\' :: 'u' :: g1 :: g2 :: g3 :: g4 :: X) :
        Except String (Char × List Char)) from rfl]
  simp only [hhi]
  rw [if_pos hir]
  simp only [hlo]
  rw [if_pos hlr]

/-- A single-character escape decodes via the table, whatever follows. -/
theorem escStep_table (e c2 : Char) (he : escTable e = some c2) (hu : ¬(e = 'u'))
    (X : List Char) : escStep (e :: X) = .ok (c2, X) := by
  unfold escStep
  split
  · rename_i a1 a2 a3 a4 g1 g2 g3 g4 cs4 heq
    simp only [List.cons.injEq] at heq
    exact absurd heq.1 hu
  · rename_i a1 a2 a3 a4 cs3 heq
    simp only [List.cons.injEq] at heq
    exact absurd heq.1 hu
  · rename_i a tail hn1 hn2 heq
    simp only [List.cons.injEq] at heq
    exact absurd heq.1 hu
  · rename_i a e2 cs2 hn1 hn2 hn3 heq
    simp only [List.cons.injEq] at heq
    obtain ⟨rfl, rfl⟩ := heq
    simp [he]
  · rename_i a heq
    exact List.noConfusion heq

/-- The escape branch of the string loop. -/
theorem parseJStringF_backslash (f : Nat) (cs2 : List Char) :
    parseJStringF (f + 1) ('\\' :: cs2) =
      (match escStep cs2 with
       | .error e => .error e
       | .ok (c2, cs3) => (parseJStringF f cs3).map (fun r => (c2 :: r.1, r.2))) := rfl

/-- Continuing the loop after a decoded escape character. -/
theorem parseJStringF_afterEsc (f : Nat) (c2 : Char) (Y content rest : List Char)
    (h : parseJStringF f Y = .ok (content, rest)) :
    ((match (Except.ok (c2, Y) : Except String (Char × List Char)) with
      | .error e => .error e
      | .ok (c2, cs3) => (parseJStringF f cs3).map (fun r => (c2 :: r.1, r.2))) :
        Except String (List Char × List Char)) =
      .ok (c2 :: content, rest) := by
  simp [h, Except.map]

/-- The literal-character branch of the string loop. -/
theorem parseJStringF_lit (f : Nat) (c : Char) (X : List Char) (h1 : ¬(c = '"'))
    (h2 : ¬(c = '\\')) (h3 : ¬(c.toNat < 0x20)) :
    parseJStringF (f + 1) (c :: X) = (parseJStringF f X).map (fun r => (c :: r.1, r.2)) := by
  simp only [parseJStringF, if_neg h1, if_neg h2, if_neg h3]

/-- The string loop reads back an escaped string body up to the closing
quote, given enough fuel. -/
theorem parseJStringF_escape : ∀ (content : List Char) (fuel : Nat) (rest : List Char),
    (content.flatMap escChar).length < fuel →
    parseJStringF fuel (content.flatMap escChar ++ '"' :: rest) = .ok (content, rest)
  | [], fuel, rest, hf => by
    match fuel, hf with
    | f + 1, _ => rfl
  | c :: cs, fuel, rest, hf => by
    obtain ⟨f, rfl⟩ : ∃ f, fuel = f + 1 := ⟨fuel - 1, by omega⟩
    rw [List.flatMap_cons, List.append_assoc]
    have hlen : (escChar c).length + (cs.flatMap escChar).length < f + 1 := by
      rw [← List.length_append, ← List.flatMap_cons]
      exact hf
    have hchar := char_toNat_range c
    have hstep := parseJStringF_escape cs f rest
    by_cases h1 : c = '"'
    · subst h1
      have hesc : escChar '"' = ['\\', '"'] := rfl
      rw [hesc] at hlen
      rw [hesc, show (['\\', '"'] : List Char) ++ (cs.flatMap escChar ++ '"' :: rest) =
          '\\' :: ('"' :: (cs.flatMap escChar ++ '"' :: rest)) from rfl,
        parseJStringF_backslash, escStep_table '"' '"' rfl (by decide)]
      exact parseJStringF_afterEsc f _ _ cs rest (hstep (by simp only [List.length_cons, List.length_nil] at hlen; omega))
    by_cases h2 : c = '\\'
    · subst h2
      have hesc : escChar '\\' = ['\\', '\\'] := rfl
      rw [hesc] at hlen
      rw [hesc, show (['\\', '\\'] : List Char) ++ (cs.flatMap escChar ++ '"' :: rest) =
          '\\' :: ('\\' :: (cs.flatMap escChar ++ '"' :: rest)) from rfl,
        parseJStringF_backslash, escStep_table '\\' '\\' rfl (by decide)]
      exact parseJStringF_afterEsc f _ _ cs rest (hstep (by simp only [List.length_cons, List.length_nil] at hlen; omega))
    by_cases h3 : c = '\x08'
    · subst h3
      have hesc : escChar '\x08' = ['\\', 'b'] := rfl
      rw [hesc] at hlen
      rw [hesc, show (['\\', 'b'] : List Char) ++ (cs.flatMap escChar ++ '"' :: rest) =
          '\\' :: ('b' :: (cs.flatMap escChar ++ '"' :: rest)) from rfl,
        parseJStringF_backslash, escStep_table 'b' '\x08' rfl (by decide)]
      exact parseJStringF_afterEsc f _ _ cs rest (hstep (by simp only [List.length_cons, List.length_nil] at hlen; omega))
    by_cases h4 : c = '\x0c'
    · subst h4
      have hesc : escChar '\x0c' = ['\\', 'f'] := rfl
      rw [hesc] at hlen
      rw [hesc, show (['\\', 'f'] : List Char) ++ (cs.flatMap escChar ++ '"' :: rest) =
          '\\' :: ('f' :: (cs.flatMap escChar ++ '"' :: rest)) from rfl,
        parseJStringF_backslash, escStep_table 'f' '\x0c' rfl (by decide)]
      exact parseJStringF_afterEsc f _ _ cs rest (hstep (by simp only [List.length_cons, List.length_nil] at hlen; omega))
    by_cases h5 : c = '\n'
    · subst h5
      have hesc : escChar '\n' = ['\\', 'n'] := rfl
      rw [hesc] at hlen
      rw [hesc, show (['\\', 'n'] : List Char) ++ (cs.flatMap escChar ++ '"' :: rest) =
          '\\' :: ('n' :: (cs.flatMap escChar ++ '"' :: rest)) from rfl,
        parseJStringF_backslash, escStep_table 'n' '\n' rfl (by decide)]
      exact parseJStringF_afterEsc f _ _ cs rest (hstep (by simp only [List.length_cons, List.length_nil] at hlen; omega))
    by_cases h6 : c = '\x0d'
    · subst h6
      have hesc : escChar '\x0d' = ['\\', 'r'] := rfl
      rw [hesc] at hlen
      rw [hesc, show (['\\', 'r'] : List Char) ++ (cs.flatMap escChar ++ '"' :: rest) =
          '\\' :: ('r' :: (cs.flatMap escChar ++ '"' :: rest)) from rfl,
        parseJStringF_backslash, escStep_table 'r' '\x0d' rfl (by decide)]
      exact parseJStringF_afterEsc f _ _ cs rest (hstep (by simp only [List.length_cons, List.length_nil] at hlen; omega))
    by_cases h7 : c = '\t'
    · subst h7
      have hesc : escChar '\t' = ['\\', 't'] := rfl
      rw [hesc] at hlen
      rw [hesc, show (['\\', 't'] : List Char) ++ (cs.flatMap escChar ++ '"' :: rest) =
          '\\' :: ('t' :: (cs.flatMap escChar ++ '"' :: rest)) from rfl,
        parseJStringF_backslash, escStep_table 't' '\t' rfl (by decide)]
      exact parseJStringF_afterEsc f _ _ cs rest (hstep (by simp only [List.length_cons, List.length_nil] at hlen; omega))
    by_cases h8 : 32 ≤ c.toNat ∧ c.toNat ≤ 126
    · have hesc : escChar c = [c] := by
        unfold escChar
        rw [if_neg h1, if_neg h2, if_neg h3, if_neg h4, if_neg h5, if_neg h6, if_neg h7,
          if_pos h8]
      rw [hesc] at hlen
      rw [hesc, List.singleton_append, parseJStringF_lit f c _ h1 h2 (by omega),
        hstep (by simp only [List.length_cons, List.length_nil] at hlen; omega)]
      rfl
    by_cases h9 : c.toNat < 65536
    · have hesc : escChar c = '\\' :: 'u' :: hex4Chars c.toNat := by
        unfold escChar
        rw [if_neg h1, if_neg h2, if_neg h3, if_neg h4, if_neg h5, if_neg h6, if_neg h7,
          if_neg h8, if_pos h9]
      rw [hesc] at hlen
      have hns : ¬(0xd800 ≤ c.toNat ∧ c.toNat ≤ 0xdfff) := by
        rcases hchar with h | h
        · omega
        · omega
      rw [hesc, show ('\\' :: 'u' :: hex4Chars c.toNat) ++ (cs.flatMap escChar ++ '"' :: rest) =
          '\\' :: ('u' :: hexDigitCh (c.toNat / 4096 % 16) :: hexDigitCh (c.toNat / 256 % 16) ::
            hexDigitCh (c.toNat / 16 % 16) :: hexDigitCh (c.toNat % 16) ::
            (cs.flatMap escChar ++ '"' :: rest)) from rfl,
        parseJStringF_backslash,
        escStep_u _ _ _ _ c.toNat (hex4_hex4Chars c.toNat h9) hns _, Char.ofNat_toNat]
      exact parseJStringF_afterEsc f _ _ cs rest
        (hstep (by simp only [hex4Chars, List.length_cons, List.length_append, List.length_nil] at hlen; omega))
    have hesc : escChar c = '\\' :: 'u' :: hex4Chars (0xd800 + (c.toNat - 0x10000) / 0x400) ++
        ('\\' :: 'u' :: hex4Chars ((c.toNat - 0x10000) % 0x400 + 0xdc00)) := by
      unfold escChar
      rw [if_neg h1, if_neg h2, if_neg h3, if_neg h4, if_neg h5, if_neg h6, if_neg h7,
        if_neg h8, if_neg h9]
    have hbig : 0x10000 ≤ c.toNat ∧ c.toNat < 0x110000 := by
      rcases hchar with h | h
      · omega
      · omega
    rw [hesc] at hlen
    have hhi : 0xd800 ≤ 0xd800 + (c.toNat - 0x10000) / 0x400 ∧
        0xd800 + (c.toNat - 0x10000) / 0x400 ≤ 0xdbff := by omega
    have hlo : 0xdc00 ≤ (c.toNat - 0x10000) % 0x400 + 0xdc00 ∧
        (c.toNat - 0x10000) % 0x400 + 0xdc00 ≤ 0xdfff := by omega
    rw [hesc, show ('\\' :: 'u' :: hex4Chars (0xd800 + (c.toNat - 0x10000) / 0x400) ++
          ('\\' :: 'u' :: hex4Chars ((c.toNat - 0x10000) % 0x400 + 0xdc00))) ++
          (cs.flatMap escChar ++ '"' :: rest) =
        '\\' :: ('u' :: hexDigitCh ((0xd800 + (c.toNat - 0x10000) / 0x400) / 4096 % 16) ::
          hexDigitCh ((0xd800 + (c.toNat - 0x10000) / 0x400) / 256 % 16) ::
          hexDigitCh ((0xd800 + (c.toNat - 0x10000) / 0x400) / 16 % 16) ::
          hexDigitCh ((0xd800 + (c.toNat - 0x10000) / 0x400) % 16) ::
          '\\' :: 'u' :: hexDigitCh (((c.toNat - 0x10000) % 0x400 + 0xdc00) / 4096 % 16) ::
          hexDigitCh (((c.toNat - 0x10000) % 0x400 + 0xdc00) / 256 % 16) ::
          hexDigitCh (((c.toNat - 0x10000) % 0x400 + 0xdc00) / 16 % 16) ::
          hexDigitCh (((c.toNat - 0x10000) % 0x400 + 0xdc00) % 16) ::
          (cs.flatMap escChar ++ '"' :: rest)) from rfl,
      parseJStringF_backslash,
      escStep_pair _ _ _ _ _ _ _ _ _ _
        (hex4_hex4Chars (0xd800 + (c.toNat - 0x10000) / 0x400) (by omega))
        (hex4_hex4Chars ((c.toNat - 0x10000) % 0x400 + 0xdc00) (by omega)) hhi hlo _,
      show 0x10000 + (0xd800 + (c.toNat - 0x10000) / 0x400 - 0xd800) * 0x400 +
        ((c.toNat - 0x10000) % 0x400 + 0xdc00 - 0xdc00) = c.toNat from by omega,
      Char.ofNat_toNat]
    exact parseJStringF_afterEsc f _ _ cs rest
      (hstep (by simp only [hex4Chars, List.length_cons, List.length_append, List.length_nil] at hlen; omega))

/-- `py_scanstring` reads back an escaped string body. -/
theorem parseJString_escape (content : List Char) (rest : List Char) :
    parseJString (content.flatMap escChar ++ '"' :: rest) = .ok (content, rest) := by
  unfold parseJString
  exact parseJStringF_escape content _ rest (by simp; omega)

/-! ## Shape of serialized values -/

/-- Sizes are positive. -/
theorem jsize_pos : ∀ p : Json, 1 ≤ jsize p
  | .null => le_refl 1
  | .bool _ => by cases ‹Bool› <;> exact le_refl 1
  | .num _ => le_refl 1
  | .str _ => le_refl 1
  | .arr _ => by simp only [jsize]; omega
  | .obj _ => by simp only [jsize]; omega

/-- The head of a serialized value is a visible opener: not whitespace, not a
separator, not a closer. -/
theorem dumpChars_head : ∀ p : Json, ∃ c t, dumpChars p = c :: t ∧
    isJsonWs c = false ∧ c ≠ ']' ∧ c ≠ '}' ∧ c ≠ ',' ∧ c ≠ ':'
  | .null => ⟨'n', _, rfl, by decide, by decide, by decide, by decide, by decide⟩
  | .bool true => ⟨'t', _, rfl, by decide, by decide, by decide, by decide, by decide⟩
  | .bool false => ⟨'f', _, rfl, by decide, by decide, by decide, by decide, by decide⟩
  | .str s => ⟨'"', _, rfl, by decide, by decide, by decide, by decide, by decide⟩
  | .arr xs => ⟨'[', _, rfl, by decide, by decide, by decide, by decide, by decide⟩
  | .obj kvs => ⟨'{', _, rfl, by decide, by decide, by decide, by decide, by decide⟩
  | .num i => by
    show ∃ c t, dumpInt i = c :: t ∧ _
    unfold dumpInt
    split_ifs with h
    · exact ⟨'-', _, rfl, by decide, by decide, by decide, by decide, by decide⟩
    · obtain ⟨d, t, heq, hd, _⟩ := natDigits_head i.toNat
      refine ⟨decDigitChar d, t, heq, ?_⟩
      interval_cases d <;> exact ⟨by decide, by decide, by decide, by decide, by decide⟩

/-- Whitespace skipping stops at a non-whitespace head. -/
theorem skipWs_cons (c : Char) (t : List Char) (h : isJsonWs c = false) :
    skipWs (c :: t) = c :: t := by
  simp [skipWs, List.dropWhile_cons, h]

/-- Whitespace skipping over one space. -/
theorem skipWs_space (t : List Char) : skipWs (' ' :: t) = skipWs t := by
  show List.dropWhile isJsonWs (' ' :: t) = skipWs t
  rw [List.dropWhile_cons, if_pos (by decide)]
  rfl

/-- Skipping whitespace before a serialized value is a no-op. -/
theorem skipWs_dump (p : Json) (X : List Char) :
    skipWs (dumpChars p ++ X) = dumpChars p ++ X := by
  obtain ⟨c, t, heq, hws, -⟩ := dumpChars_head p
  rw [heq, List.cons_append, skipWs_cons c _ hws]

/-- The serializer emits only ASCII. -/
theorem dump_ascii : ∀ n : Nat,
    (∀ p : Json, jsize p ≤ n → ∀ c ∈ dumpChars p, c.toNat < 128) ∧
    (∀ xs : List Json, jsizeL xs ≤ n → ∀ c ∈ dumpCharsL xs, c.toNat < 128) ∧
    (∀ kvs : List (String × Json), jsizeO kvs ≤ n → ∀ c ∈ dumpCharsO kvs, c.toNat < 128) := by
  intro n
  induction n using Nat.strong_induction_on with
  | _ n IH =>
    have P1 : ∀ p : Json, jsize p ≤ n → ∀ c ∈ dumpChars p, c.toNat < 128 := by
      intro p hp c hc
      match p with
      | .null =>
        replace hc : c ∈ ['n', 'u', 'l', 'l'] := hc
        fin_cases hc <;> decide
      | .bool true =>
        replace hc : c ∈ ['t', 'r', 'u', 'e'] := hc
        fin_cases hc <;> decide
      | .bool false =>
        replace hc : c ∈ ['f', 'a', 'l', 's', 'e'] := hc
        fin_cases hc <;> decide
      | .num i => exact dumpInt_ascii i c hc
      | .str s => exact dumpStr_ascii s c hc
      | .arr xs =>
        have hn : 2 + jsizeL xs ≤ n := hp
        replace hc : c ∈ '[' :: (dumpCharsL xs ++ [']']) := hc
        rcases List.mem_cons.mp hc with rfl | hc2
        · decide
        rcases List.mem_append.mp hc2 with hc3 | hc4
        · exact (IH (n - 1) (by omega)).2.1 xs (by omega) c hc3
        · obtain rfl := List.mem_singleton.mp hc4
          decide
      | .obj kvs =>
        have hn : 2 + jsizeO kvs ≤ n := hp
        replace hc : c ∈ '{' :: (dumpCharsO kvs ++ ['}']) := hc
        rcases List.mem_cons.mp hc with rfl | hc2
        · decide
        rcases List.mem_append.mp hc2 with hc3 | hc4
        · exact (IH (n - 1) (by omega)).2.2 kvs (by omega) c hc3
        · obtain rfl := List.mem_singleton.mp hc4
          decide
    refine ⟨P1, ?_, ?_⟩
    · intro xs
      induction xs with
      | nil => intro _ c hc; simp [dumpCharsL] at hc
      | cons x ys ihl =>
        intro hs c hc
        cases ys with
        | nil => exact P1 x (by simp only [jsizeL] at hs ⊢; omega) c hc
        | cons y ys2 =>
          replace hc : c ∈ dumpChars x ++ ',' :: ' ' :: dumpCharsL (y :: ys2) := hc
          rcases List.mem_append.mp hc with hc1 | hc2
          · exact P1 x (by simp only [jsizeL] at hs; omega) c hc1
          rcases List.mem_cons.mp hc2 with rfl | hc3
          · decide
          rcases List.mem_cons.mp hc3 with rfl | hc4
          · decide
          · exact ihl (by simp only [jsizeL] at hs ⊢; omega) c hc4
    · intro kvs
      induction kvs with
      | nil => intro _ c hc; simp [dumpCharsO] at hc
      | cons kv rest iho =>
        obtain ⟨k, v⟩ := kv
        intro hs c hc
        cases rest with
        | nil =>
          replace hc : c ∈ dumpStr k ++ ':' :: ' ' :: dumpChars v := hc
          rcases List.mem_append.mp hc with hc1 | hc2
          · exact dumpStr_ascii k c hc1
          rcases List.mem_cons.mp hc2 with rfl | hc3
          · decide
          rcases List.mem_cons.mp hc3 with rfl | hc4
          · decide
          · exact P1 v (by simp only [jsizeO] at hs; omega) c hc4
        | cons kv2 rest2 =>
          obtain ⟨k2, v2⟩ := kv2
          replace hc : c ∈ (dumpStr k ++ ':' :: ' ' :: dumpChars v) ++
              ',' :: ' ' :: dumpCharsO ((k2, v2) :: rest2) := hc
          rcases List.mem_append.mp hc with hc1 | hc2
          · rcases List.mem_append.mp hc1 with hc3 | hc4
            · exact dumpStr_ascii k c hc3
            rcases List.mem_cons.mp hc4 with rfl | hc5
            · decide
            rcases List.mem_cons.mp hc5 with rfl | hc6
            · decide
            · exact P1 v (by simp only [jsizeO] at hs; omega) c hc6
          rcases List.mem_cons.mp hc2 with rfl | hc7
          · decide
          rcases List.mem_cons.mp hc7 with rfl | hc8
          · decide
          · exact iho (by simp only [jsizeO] at hs ⊢; omega) c hc8

/-! ## `dict(pairs)` on duplicate-free keys -/

/-- Inserting a fresh key appends. -/
theorem dictInsert_fresh : ∀ (acc : List (String × Json)) (k : String) (v : Json),
    k ∉ acc.map Prod.fst → dictInsert acc k v = acc ++ [(k, v)]
  | [], _, _, _ => rfl
  | (k0, v0) :: rest, k, v, h => by
    have hne : ¬(k0 = k) := by
      intro heq
      exact h (by simp [heq])
    show (if k0 = k then (k0, v) :: rest else (k0, v0) :: dictInsert rest k v) = _
    rw [if_neg hne, dictInsert_fresh rest k v (fun hm => h (List.mem_cons_of_mem _ hm))]
    rfl

/-- The insertion fold on pairwise-fresh keys reproduces the pair list. -/
theorem pyDict_go : ∀ (kvs acc : List (String × Json)), nodupKeys kvs = true →
    (∀ p ∈ kvs, p.1 ∉ acc.map Prod.fst) →
    kvs.foldl (fun acc kv => dictInsert acc kv.1 kv.2) acc = acc ++ kvs
  | [], acc, _, _ => (List.append_nil acc).symm
  | (k, v) :: rest, acc, hnd, hdisj => by
    have hnd2 : ((!(rest.map Prod.fst).contains k) && nodupKeys rest) = true := hnd
    rw [Bool.and_eq_true, Bool.not_eq_true'] at hnd2
    rw [List.foldl_cons, dictInsert_fresh acc k v (hdisj (k, v) (List.mem_cons_self _ _)),
        pyDict_go rest (acc ++ [(k, v)]) hnd2.2 ?fresh, List.append_assoc]
    rfl
    case fresh =>
      intro p hp
      rw [List.map_append, List.mem_append]
      rintro (hacc | hk)
      · exact hdisj p (List.mem_cons_of_mem _ hp) hacc
      · have : p.1 = k := by simpa using hk
        have hkmem : k ∈ rest.map Prod.fst := this ▸ List.mem_map_of_mem Prod.fst hp
        have hnc : k ∉ rest.map Prod.fst := by simpa using hnd2.1
        exact hnc hkmem

/-- `dict(pairs)` is the identity on duplicate-free association lists. -/
theorem pyDict_nodup (kvs : List (String × Json)) (h : nodupKeys kvs = true) :
    pyDict kvs = kvs := by
  have := pyDict_go kvs [] h (by intro p _ hm; simp at hm)
  simpa [pyDict] using this

/-! ## `_scan_once` dispatch -/

/-- `_scan_once` on the four-character literal `null`. -/
theorem parseValue_null (f : Nat) (rest : List Char) :
    parseValue (f + 1) ('n' :: 'u' :: 'l' :: 'l' :: rest) = .ok (.null, rest) := rfl

/-- `_scan_once` on the literal `true`. -/
theorem parseValue_true (f : Nat) (rest : List Char) :
    parseValue (f + 1) ('t' :: 'r' :: 'u' :: 'e' :: rest) = .ok (.bool true, rest) := rfl

/-- `_scan_once` on the literal `false`. -/
theorem parseValue_false (f : Nat) (rest : List Char) :
    parseValue (f + 1) ('f' :: 'a' :: 'l' :: 's' :: 'e' :: rest) = .ok (.bool false, rest) := rfl

/-- `_scan_once` on an opening quote delegates to `py_scanstring`. -/
theorem parseValue_quote (f : Nat) (cs : List Char) :
    parseValue (f + 1) ('"' :: cs) =
      (parseJString cs).map (fun r => (.str (String.mk r.1), r.2)) := rfl

/-- `_scan_once` on `[]`. -/
theorem parseValue_arr_nil (f : Nat) (rest : List Char) :
    parseValue (f + 1) ('[' :: ']' :: rest) = .ok (.arr [], rest) := rfl

/-- `_scan_once` on `{}`. -/
theorem parseValue_obj_nil (f : Nat) (rest : List Char) :
    parseValue (f + 1) ('{' :: '}' :: rest) = .ok (.obj [], rest) := rfl

/-- `_scan_once` on `[` followed by a non-`]` visible character enters the
element loop at the previous fuel level. -/
theorem parseValue_arr_go (f : Nat) (c : Char) (t : List Char)
    (hws : isJsonWs c = false) (hc : ¬(c = ']')) :
    parseValue (f + 1) ('[' :: c :: t) =
      (parseElems f (c :: t)).map (fun r => (.arr r.1, r.2)) := by
  rw [show parseValue (f + 1) ('[' :: c :: t) =
      (match skipWs (c :: t) with
       | ']' :: r => Except.ok (Json.arr [], r)
       | cs1 => (parseElems f cs1).map (fun r => (Json.arr r.1, r.2))) from rfl,
    skipWs_cons c t hws]
  split
  · rename_i r heq
    exact absurd (List.cons.injEq .. ▸ heq).1 hc
  · rfl

/-- `_scan_once` on `{` followed by a non-`}` visible character enters the
member loop at the previous fuel level and builds the resulting dict. -/
theorem parseValue_obj_go (f : Nat) (c : Char) (t : List Char)
    (hws : isJsonWs c = false) (hc : ¬(c = '}')) :
    parseValue (f + 1) ('{' :: c :: t) =
      (parseMembers f (c :: t)).map (fun r => (.obj (pyDict r.1), r.2)) := by
  rw [show parseValue (f + 1) ('{' :: c :: t) =
      (match skipWs (c :: t) with
       | '}' :: r => Except.ok (Json.obj [], r)
       | cs1 => (parseMembers f cs1).map (fun r => (Json.obj (pyDict r.1), r.2))) from rfl,
    skipWs_cons c t hws]
  split
  · rename_i r heq
    exact absurd (List.cons.injEq .. ▸ heq).1 hc
  · rfl

/-- One step of the `JSONArray` element loop after a successful value scan. -/
theorem parseElems_ok (f : Nat) (cs : List Char) (v : Json) (cs2 : List Char)
    (h : parseValue f cs = .ok (v, cs2)) :
    parseElems (f + 1) cs =
      (match skipWs cs2 with
       | ']' :: rest => Except.ok ([v], rest)
       | ',' :: rest => (parseElems f (skipWs rest)).map (fun r => (v :: r.1, r.2))
       | _ => Except.error "Expecting comma delimiter") := by
  rw [show parseElems (f + 1) cs = Except.bind (parseValue f cs)
      (fun x => match skipWs x.2 with
       | ']' :: rest => Except.ok ([x.1], rest)
       | ',' :: rest => (parseElems f (skipWs rest)).map (fun r => (x.1 :: r.1, r.2))
       | _ => Except.error "Expecting comma delimiter") from rfl, h]
  rfl

/-- One step of the `JSONObject` member loop: a quoted key, a colon, a value,
then either `}` or a comma and the rest of the members. -/
theorem parseMembers_step (f : Nat) (cs : List Char) :
    parseMembers (f + 1) ('"' :: cs) =
      Except.bind (parseJString cs) (fun r =>
        match skipWs r.2 with
        | ':' :: cs3 =>
          Except.bind (parseValue f (skipWs cs3)) (fun s =>
            match skipWs s.2 with
            | '}' :: rest => Except.ok ([(String.mk r.1, s.1)], rest)
            | ',' :: rest =>
              (parseMembers f (skipWs rest)).map
                (fun t => ((String.mk r.1, s.1) :: t.1, t.2))
            | _ => Except.error "Expecting comma delimiter")
        | _ => Except.error "Expecting colon delimiter") := rfl

/-! ## The parse–print round trip -/

/-- A nonempty serialized element list starts with its first element's
serialization. -/
theorem dumpCharsL_head (x : Json) (xs : List Json) :
    ∃ t, dumpCharsL (x :: xs) = dumpChars x ++ t :=
  match xs with
  | [] => ⟨[], (List.append_nil _).symm⟩
  | y :: ys => ⟨',' :: ' ' :: dumpCharsL (y :: ys), rfl⟩

/-- A nonempty serialized member list starts with its first key's
serialization. -/
theorem dumpCharsO_head (k : String) (v : Json) (kvs : List (String × Json)) :
    ∃ t, dumpCharsO ((k, v) :: kvs) = dumpStr k ++ t :=
  match kvs with
  | [] => ⟨':' :: ' ' :: dumpChars v, rfl⟩
  | m :: ms =>
    ⟨(':' :: ' ' :: dumpChars v) ++ ',' :: ' ' :: dumpCharsO (m :: ms), by
      rw [← List.append_assoc]
      rfl⟩

/-- The size of a value is at most the length of its serialization. -/
theorem jsize_le_dumpLen : ∀ n : Nat,
    (∀ p : Json, jsize p ≤ n → jsize p ≤ (dumpChars p).length) ∧
    (∀ xs : List Json, jsizeL xs ≤ n → jsizeL xs ≤ (dumpCharsL xs).length) ∧
    (∀ kvs : List (String × Json), jsizeO kvs ≤ n → jsizeO kvs ≤ (dumpCharsO kvs).length) := by
  intro n
  induction n using Nat.strong_induction_on with
  | _ n IH =>
    have P1 : ∀ p : Json, jsize p ≤ n → jsize p ≤ (dumpChars p).length := by
      intro p hp
      match p with
      | .null =>
        show (1:Nat) ≤ (['n', 'u', 'l', 'l'] : List Char).length
        decide
      | .bool true =>
        show (1:Nat) ≤ (['t', 'r', 'u', 'e'] : List Char).length
        decide
      | .bool false =>
        show (1:Nat) ≤ (['f', 'a', 'l', 's', 'e'] : List Char).length
        decide
      | .str s =>
        show jsize (.str s) ≤ ('"' :: (s.data.flatMap escChar ++ ['"'])).length
        simp [jsize]
      | .num i =>
        show jsize (.num i) ≤ (dumpInt i).length
        obtain ⟨d, t, heq, -, -⟩ := natDigits_head i.toNat
        unfold dumpInt
        split_ifs with h
        · simp [jsize]
        · rw [heq]
          simp [jsize]
      | .arr xs =>
        have hn : 2 + jsizeL xs ≤ n := hp
        have hL := (IH (n - 1) (by omega)).2.1 xs (by omega)
        show 2 + jsizeL xs ≤ ('[' :: (dumpCharsL xs ++ [']'])).length
        simp only [List.length_cons, List.length_append, List.length_nil]
        omega
      | .obj kvs =>
        have hn : 2 + jsizeO kvs ≤ n := hp
        have hO := (IH (n - 1) (by omega)).2.2 kvs (by omega)
        show 2 + jsizeO kvs ≤ ('{' :: (dumpCharsO kvs ++ ['}'])).length
        simp only [List.length_cons, List.length_append, List.length_nil]
        omega
    refine ⟨P1, ?_, ?_⟩
    · intro xs
      induction xs with
      | nil => intro _; simp [jsizeL, dumpCharsL]
      | cons x ys ihl =>
        intro hs
        cases ys with
        | nil =>
          have := P1 x (by simp only [jsizeL] at hs ⊢; omega)
          show jsize x + jsizeL [] ≤ (dumpChars x).length
          simp only [jsizeL]
          omega
        | cons y ys2 =>
          have h1 := P1 x (by simp only [jsizeL] at hs; omega)
          have h2 := ihl (by simp only [jsizeL] at hs ⊢; omega)
          show jsize x + jsizeL (y :: ys2) ≤
            (dumpChars x ++ ',' :: ' ' :: dumpCharsL (y :: ys2)).length
          simp only [List.length_append, List.length_cons]
          omega
    · intro kvs
      induction kvs with
      | nil => intro _; simp [jsizeO, dumpCharsO]
      | cons kv rest iho =>
        obtain ⟨k, v⟩ := kv
        intro hs
        cases rest with
        | nil =>
          have := P1 v (by simp only [jsizeO] at hs ⊢; omega)
          show jsize v + jsizeO [] ≤ (dumpStr k ++ ':' :: ' ' :: dumpChars v).length
          simp only [jsizeO, List.length_append, List.length_cons]
          omega
        | cons kv2 rest2 =>
          obtain ⟨k2, v2⟩ := kv2
          have h1 := P1 v (by simp only [jsizeO] at hs; omega)
          have h2 := iho (by simp only [jsizeO] at hs ⊢; omega)
          show jsize v + jsizeO ((k2, v2) :: rest2) ≤
            ((dumpStr k ++ ':' :: ' ' :: dumpChars v) ++
              ',' :: ' ' :: dumpCharsO ((k2, v2) :: rest2)).length
          simp only [List.length_append, List.length_cons]
          omega

/-- `Except.bind` on a success. -/
theorem exceptBind_ok {α β : Type} (a : α) (g : α → Except String β) :
    Except.bind (Except.ok a) g = g a := rfl

/-- Skipping whitespace before a serialized member list is a no-op. -/
theorem skipWs_dumpO (k : String) (v : Json) (kvs : List (String × Json)) (X : List Char) :
    skipWs (dumpCharsO ((k, v) :: kvs) ++ X) = dumpCharsO ((k, v) :: kvs) ++ X := by
  obtain ⟨t, ht⟩ := dumpCharsO_head k v kvs
  rw [ht]
  exact skipWs_cons '"' (((k.data.flatMap escChar ++ ['"']) ++ t) ++ X) (by decide)

/-- A full pass of the `JSONObject` member loop: key, colon and value scans
given, leaving the comma-or-closing-brace dispatch. -/
theorem parseMembers_ok (f : Nat) (cs kd cs2 cs3 : List Char) (v : Json) (cs4 : List Char)
    (hkey : parseJString cs = .ok (kd, cs2))
    (hc : skipWs cs2 = ':' :: cs3)
    (hv : parseValue f (skipWs cs3) = .ok (v, cs4)) :
    parseMembers (f + 1) ('"' :: cs) =
      (match skipWs cs4 with
       | '}' :: rest => Except.ok ([(String.mk kd, v)], rest)
       | ',' :: rest => (parseMembers f (skipWs rest)).map
           (fun t => ((String.mk kd, v) :: t.1, t.2))
       | _ => Except.error "Expecting comma delimiter") := by
  rw [parseMembers_step, hkey, exceptBind_ok]
  show (match skipWs cs2 with
    | ':' :: cs9 => Except.bind (parseValue f (skipWs cs9)) (fun s =>
        match skipWs s.2 with
        | '}' :: rest => Except.ok ([(String.mk kd, s.1)], rest)
        | ',' :: rest => (parseMembers f (skipWs rest)).map
            (fun t : List (String × Json) × List Char => ((String.mk kd, s.1) :: t.1, t.2))
        | _ => Except.error "Expecting comma delimiter")
    | _ => Except.error "Expecting colon delimiter") = _
  rw [hc]
  show Except.bind (parseValue f (skipWs cs3)) (fun s =>
      match skipWs s.2 with
      | '}' :: rest => Except.ok ([(String.mk kd, s.1)], rest)
      | ',' :: rest => (parseMembers f (skipWs rest)).map
          (fun t : List (String × Json) × List Char => ((String.mk kd, s.1) :: t.1, t.2))
      | _ => Except.error "Expecting comma delimiter") = _
  rw [hv, exceptBind_ok]

/-- Round trip of the scanner over the serializer: parsing a printed value
(with enough fuel) returns exactly that value, for well-formed values and any
continuation that starts with a delimiter.  Stated simultaneously for values,
nonempty element lists and nonempty member lists. -/
theorem parse_dump : ∀ n : Nat,
    (∀ (p : Json) (f : Nat) (rest : List Char), jsize p ≤ n → jwf p = true →
      jsize p ≤ f → restOk rest →
      parseValue f (dumpChars p ++ rest) = .ok (p, rest)) ∧
    (∀ (x : Json) (xs : List Json) (f : Nat) (rest : List Char),
      jsizeL (x :: xs) ≤ n → jwfL (x :: xs) = true → jsizeL (x :: xs) + 1 ≤ f →
      parseElems f (dumpCharsL (x :: xs) ++ ']' :: rest) = .ok (x :: xs, rest)) ∧
    (∀ (k : String) (v : Json) (kvs : List (String × Json)) (f : Nat) (rest : List Char),
      jsizeO ((k, v) :: kvs) ≤ n → jwfO ((k, v) :: kvs) = true →
      jsizeO ((k, v) :: kvs) + 1 ≤ f →
      parseMembers f (dumpCharsO ((k, v) :: kvs) ++ '}' :: rest) = .ok ((k, v) :: kvs, rest)) := by
  intro n
  induction n using Nat.strong_induction_on with
  | _ n IH =>
    have P1 : ∀ (p : Json) (f : Nat) (rest : List Char), jsize p ≤ n → jwf p = true →
        jsize p ≤ f → restOk rest →
        parseValue f (dumpChars p ++ rest) = .ok (p, rest) := by
      intro p f rest hn hwf hf hrest
      obtain ⟨f0, rfl⟩ : ∃ f0, f = f0 + 1 := ⟨f - 1, by have := jsize_pos p; omega⟩
      match p with
      | .null => exact parseValue_null f0 rest
      | .bool true => exact parseValue_true f0 rest
      | .bool false => exact parseValue_false f0 rest
      | .num i => exact parseValue_num i f0 rest hrest
      | .str s =>
        obtain ⟨sd⟩ := s
        show parseValue (f0 + 1) ('"' :: ((sd.flatMap escChar ++ ['"']) ++ rest)) =
          Except.ok (Json.str (String.mk sd), rest)
        rw [parseValue_quote, List.append_assoc, List.singleton_append, parseJString_escape]
        rfl
      | .arr [] => exact parseValue_arr_nil f0 rest
      | .arr (x :: xs) =>
        have hwfL : jwfL (x :: xs) = true := hwf
        have hnL : 2 + jsizeL (x :: xs) ≤ n := hn
        have hfL : 2 + jsizeL (x :: xs) ≤ f0 + 1 := hf
        obtain ⟨t, ht⟩ := dumpCharsL_head x xs
        obtain ⟨c, t0, hx, hws, hne1, hne2, hne3, hne4⟩ := dumpChars_head x
        have hshape : dumpCharsL (x :: xs) ++ ']' :: rest = c :: (t0 ++ (t ++ ']' :: rest)) := by
          rw [ht, hx]
          simp [List.append_assoc]
        show parseValue (f0 + 1) ('[' :: ((dumpCharsL (x :: xs) ++ [']']) ++ rest)) =
          Except.ok (Json.arr (x :: xs), rest)
        rw [List.append_assoc, List.singleton_append, hshape,
          parseValue_arr_go f0 c _ hws hne1, ← hshape,
          (IH (n - 1) (by omega)).2.1 x xs f0 rest (by omega) hwfL (by omega)]
        rfl
      | .obj [] => exact parseValue_obj_nil f0 rest
      | .obj ((k, v) :: kvs) =>
        have hwfO : (nodupKeys ((k, v) :: kvs) && jwfO ((k, v) :: kvs)) = true := hwf
        rw [Bool.and_eq_true] at hwfO
        have hnO : 2 + jsizeO ((k, v) :: kvs) ≤ n := hn
        have hfO : 2 + jsizeO ((k, v) :: kvs) ≤ f0 + 1 := hf
        obtain ⟨t, ht⟩ := dumpCharsO_head k v kvs
        have hshape : dumpCharsO ((k, v) :: kvs) ++ '}' :: rest =
            '"' :: ((k.data.flatMap escChar ++ ['"']) ++ (t ++ '}' :: rest)) := by
          rw [ht, List.append_assoc]
          rfl
        show parseValue (f0 + 1) ('{' :: ((dumpCharsO ((k, v) :: kvs) ++ ['}']) ++ rest)) =
          Except.ok (Json.obj ((k, v) :: kvs), rest)
        rw [List.append_assoc, List.singleton_append, hshape,
          parseValue_obj_go f0 '"' _ (by decide) (by decide), ← hshape,
          (IH (n - 1) (by omega)).2.2 k v kvs f0 rest (by omega) hwfO.2 (by omega)]
        show Except.ok (Json.obj (pyDict ((k, v) :: kvs)), rest) =
          Except.ok (Json.obj ((k, v) :: kvs), rest)
        rw [pyDict_nodup _ hwfO.1]
    refine ⟨P1, ?_, ?_⟩
    · intro x xs f rest hn2 hwf2 hf2
      obtain ⟨f0, rfl⟩ : ∃ f0, f = f0 + 1 := ⟨f - 1, by omega⟩
      have hwf2' : (jwf x && jwfL xs) = true := hwf2
      rw [Bool.and_eq_true] at hwf2'
      have hsz : jsize x + jsizeL xs ≤ n := hn2
      have hszf : jsize x + jsizeL xs + 1 ≤ f0 + 1 := hf2
      have hp1 := jsize_pos x
      cases xs with
      | nil =>
        have hv := P1 x f0 (']' :: rest) (by simp only [jsizeL] at hsz; omega) hwf2'.1
          (by simp only [jsizeL] at hszf; omega)
          (Or.inr ⟨']', rest, rfl, Or.inr (Or.inl rfl)⟩)
        show parseElems (f0 + 1) (dumpChars x ++ ']' :: rest) = Except.ok ([x], rest)
        rw [parseElems_ok f0 _ x (']' :: rest) hv, skipWs_cons ']' rest (by decide)]
        rfl
      | cons y ys =>
        have hshape : dumpCharsL (x :: y :: ys) ++ ']' :: rest =
            dumpChars x ++ (',' :: ' ' :: (dumpCharsL (y :: ys) ++ ']' :: rest)) := by
          show (dumpChars x ++ ',' :: ' ' :: dumpCharsL (y :: ys)) ++ ']' :: rest = _
          rw [List.append_assoc]
          rfl
        have hv := P1 x f0 (',' :: ' ' :: (dumpCharsL (y :: ys) ++ ']' :: rest))
          (by omega) hwf2'.1 (by omega)
          (Or.inr ⟨',', _, rfl, Or.inl rfl⟩)
        rw [hshape, parseElems_ok f0 _ x _ hv,
          skipWs_cons ',' _ (by decide)]
        show (parseElems f0 (skipWs (' ' :: (dumpCharsL (y :: ys) ++ ']' :: rest)))).map
          (fun r => (x :: r.1, r.2)) = Except.ok (x :: y :: ys, rest)
        obtain ⟨t, ht⟩ := dumpCharsL_head y ys
        rw [skipWs_space, ht, List.append_assoc, skipWs_dump, ← List.append_assoc, ← ht,
          (IH (n - 1) (by omega)).2.1 y ys f0 rest (by omega) hwf2'.2 (by omega)]
        rfl
    · intro k v kvs f rest hn3 hwf3 hf3
      obtain ⟨f0, rfl⟩ : ∃ f0, f = f0 + 1 := ⟨f - 1, by omega⟩
      have hwf3' : (jwf v && jwfO kvs) = true := hwf3
      rw [Bool.and_eq_true] at hwf3'
      have hsz : jsize v + jsizeO kvs ≤ n := hn3
      have hszf : jsize v + jsizeO kvs + 1 ≤ f0 + 1 := hf3
      have hp1 := jsize_pos v
      obtain ⟨kd⟩ := k
      cases kvs with
      | nil =>
        have hshape : dumpCharsO [(String.mk kd, v)] ++ '}' :: rest =
            '"' :: (kd.flatMap escChar ++ '"' :: (':' :: ' ' :: (dumpChars v ++ '}' :: rest))) := by
          show (dumpStr (String.mk kd) ++ ':' :: ' ' :: dumpChars v) ++ '}' :: rest = _
          rw [List.append_assoc]
          show '"' :: ((kd.flatMap escChar ++ ['"']) ++ (':' :: ' ' :: dumpChars v ++ '}' :: rest)) = _
          rw [List.append_assoc, List.singleton_append]
          rfl
        have hkey := parseJString_escape kd (':' :: ' ' :: (dumpChars v ++ '}' :: rest))
        have hcol : skipWs (':' :: ' ' :: (dumpChars v ++ '}' :: rest)) =
            ':' :: (' ' :: (dumpChars v ++ '}' :: rest)) := skipWs_cons ':' _ (by decide)
        have hval : parseValue f0 (skipWs (' ' :: (dumpChars v ++ '}' :: rest))) =
            .ok (v, '}' :: rest) := by
          rw [skipWs_space, skipWs_dump]
          exact P1 v f0 ('}' :: rest) (by simp only [jsizeO] at hsz; omega) hwf3'.1
            (by simp only [jsizeO] at hszf; omega)
            (Or.inr ⟨'}', rest, rfl, Or.inr (Or.inr rfl)⟩)
        rw [hshape, parseMembers_ok f0 _ kd _ _ v ('}' :: rest) hkey hcol hval,
          skipWs_cons '}' rest (by decide)]
        rfl
      | cons kv2 rest2 =>
        obtain ⟨k2, v2⟩ := kv2
        have hshape : dumpCharsO ((String.mk kd, v) :: (k2, v2) :: rest2) ++ '}' :: rest =
            '"' :: (kd.flatMap escChar ++ '"' :: (':' :: ' ' :: (dumpChars v ++
              ',' :: ' ' :: (dumpCharsO ((k2, v2) :: rest2) ++ '}' :: rest)))) := by
          show ((dumpStr (String.mk kd) ++ ':' :: ' ' :: dumpChars v) ++
            ',' :: ' ' :: dumpCharsO ((k2, v2) :: rest2)) ++ '}' :: rest = _
          rw [List.append_assoc, List.append_assoc]
          show '"' :: ((kd.flatMap escChar ++ ['"']) ++ (':' :: ' ' :: dumpChars v ++
            (',' :: ' ' :: dumpCharsO ((k2, v2) :: rest2) ++ '}' :: rest))) = _
          rw [List.append_assoc, List.singleton_append]
          rfl
        have hkey := parseJString_escape kd (':' :: ' ' :: (dumpChars v ++
          ',' :: ' ' :: (dumpCharsO ((k2, v2) :: rest2) ++ '}' :: rest)))
        have hcol : skipWs (':' :: ' ' :: (dumpChars v ++
            ',' :: ' ' :: (dumpCharsO ((k2, v2) :: rest2) ++ '}' :: rest))) =
            ':' :: (' ' :: (dumpChars v ++
              ',' :: ' ' :: (dumpCharsO ((k2, v2) :: rest2) ++ '}' :: rest))) :=
          skipWs_cons ':' _ (by decide)
        have hval : parseValue f0 (skipWs (' ' :: (dumpChars v ++
            ',' :: ' ' :: (dumpCharsO ((k2, v2) :: rest2) ++ '}' :: rest)))) =
            .ok (v, ',' :: ' ' :: (dumpCharsO ((k2, v2) :: rest2) ++ '}' :: rest)) := by
          rw [skipWs_space, skipWs_dump]
          exact P1 v f0 _ (by omega) hwf3'.1 (by omega)
            (Or.inr ⟨',', _, rfl, Or.inl rfl⟩)
        rw [hshape, parseMembers_ok f0 _ kd _ _ v _ hkey hcol hval,
          skipWs_cons ',' _ (by decide)]
        show (parseMembers f0 (skipWs (' ' :: (dumpCharsO ((k2, v2) :: rest2) ++ '}' :: rest)))).map
          (fun t => ((String.mk kd, v) :: t.1, t.2)) =
          Except.ok ((String.mk kd, v) :: (k2, v2) :: rest2, rest)
        rw [skipWs_space, skipWs_dumpO,
          (IH (n - 1) (by omega)).2.2 k2 v2 rest2 f0 rest (by omega) hwf3'.2 (by omega)]
        rfl

/-- `json.loads` inverts `json.dumps` on well-formed values: the serializer
emits ASCII, UTF-8 encode/decode cancel, and the scanner reads the printed
text back with the fuel `json.loads` supplies. -/
theorem json_loads_dumps (p : Json) (hwf : jwf p = true) :
    json_loads (utf8Encode (json_dumps p)) = .ok p := by
  have hascii : ∀ c ∈ dumpChars p, c.toNat < 128 :=
    (dump_ascii (jsize p)).1 p le_rfl
  have henc : utf8Encode (json_dumps p) = (dumpChars p).map Char.toNat := by
    show (dumpChars p).flatMap utf8EncodeChar = _
    exact utf8Encode_ascii _ hascii
  have hdec : utf8Decode (utf8Encode (json_dumps p)) = .ok (dumpChars p) := by
    rw [henc]
    exact utf8Decode_ascii _ hascii
  have hskip : skipWs (dumpChars p) = dumpChars p := by
    have h := skipWs_dump p []
    rwa [List.append_nil] at h
  have hfuel : jsize p ≤ (dumpChars p).length + 1 := by
    have := (jsize_le_dumpLen (jsize p)).1 p le_rfl
    omega
  have hparse : parseValue ((dumpChars p).length + 1) (dumpChars p) = .ok (p, []) := by
    have h := (parse_dump (jsize p)).1 p ((dumpChars p).length + 1) [] le_rfl hwf hfuel
      (Or.inl rfl)
    rwa [List.append_nil] at h
  show Except.bind (utf8Decode (utf8Encode (json_dumps p))) jsonParse = .ok p
  rw [hdec, exceptBind_ok]
  show Except.bind (parseValue ((dumpChars p).length + 1) (skipWs (dumpChars p)))
    (fun r => if (skipWs r.2).isEmpty then pure r.1 else Except.error "Extra data") = .ok p
  rw [hskip, hparse, exceptBind_ok]
  rfl

/-- C3: Round trip — for every well-formed JSON object value `p` (objects with
duplicate-free keys throughout) and every dot-free header and signature
segment, decoding the token `header.base64url(utf8(json.dumps(p))).signature`
(unpadded base64url) succeeds, prints nothing, and returns exactly `p`. -/
theorem roundtrip (header sig : String) (kvs : List (String × Json))
    (hh : '.' ∉ header.data) (hs : '.' ∉ sig.data)
    (hwf : jwf (Json.obj kvs) = true) :
    decode_jwt_payload (header ++ "." ++
      String.mk (b64urlEncode (utf8Encode (json_dumps (Json.obj kvs)))) ++ "." ++ sig) =
      (some (Json.obj kvs), []) := by
  have hascii : ∀ c ∈ dumpChars (Json.obj kvs), c.toNat < 128 :=
    (dump_ascii (jsize (Json.obj kvs))).1 _ le_rfl
  have henc : utf8Encode (json_dumps (Json.obj kvs)) =
      (dumpChars (Json.obj kvs)).map Char.toNat := by
    show (dumpChars (Json.obj kvs)).flatMap utf8EncodeChar = _
    exact utf8Encode_ascii _ hascii
  have hbytes : ∀ b ∈ utf8Encode (json_dumps (Json.obj kvs)), b < 256 := by
    rw [henc]
    intro b hb
    obtain ⟨c, hc, rfl⟩ := List.mem_map.mp hb
    have := hascii c hc
    omega
  have hdot : '.' ∉ b64urlEncode (utf8Encode (json_dumps (Json.obj kvs))) := by
    intro hmem
    obtain ⟨v, hv, hc⟩ := b64urlEncode_chars _ hbytes '.' hmem
    exact (b64urlChar_ne v hv).1 hc.symm
  have hd : (header ++ "." ++
      String.mk (b64urlEncode (utf8Encode (json_dumps (Json.obj kvs)))) ++ "." ++ sig).data =
      header.data ++ ('.' :: (b64urlEncode (utf8Encode (json_dumps (Json.obj kvs))) ++
        ('.' :: sig.data))) := by
    simp only [String.data_append, List.append_assoc]
    rfl
  have hsplit : splitOnDot (header ++ "." ++
      String.mk (b64urlEncode (utf8Encode (json_dumps (Json.obj kvs)))) ++ "." ++ sig).data =
      [header.data, b64urlEncode (utf8Encode (json_dumps (Json.obj kvs))), sig.data] := by
    rw [hd]
    exact splitOnDot_three header.data _ sig.data hh hdot hs
  have hsteps : decode_steps (b64urlEncode (utf8Encode (json_dumps (Json.obj kvs)))) =
      .ok (Json.obj kvs) := by
    show Except.bind (urlsafe_b64decode (pad_payload
      (b64urlEncode (utf8Encode (json_dumps (Json.obj kvs)))))) json_loads = _
    rw [b64url_roundtrip _ hbytes, exceptBind_ok]
    exact json_loads_dumps _ hwf
  rw [decode_of_split3 _ header.data _ sig.data hsplit, hsteps]

/-- Witness for C3 at a concrete input: header `h`, signature `s`, payload
object `{"a": 1}`. -/
theorem roundtrip_witness :
    decode_jwt_payload ("h" ++ "." ++
      String.mk (b64urlEncode (utf8Encode (json_dumps (Json.obj [("a", Json.num 1)])))) ++
      "." ++ "s") = (some (Json.obj [("a", Json.num 1)]), []) :=
  roundtrip "h" "s" [("a", Json.num 1)] (by decide) (by decide) (by decide)
